import Mathlib

/-!
# A* route planner (`src/route_planner.cpp`)

A shallow embedding of `RoutePlanner` and a verification of its specification.

* A `RouteModel::Node *` is a `NodeId`, the index of the node in the model; the
  null pointer is `none`.
* `float` is `ℚ`: every statement is about exact arithmetic.
* The model (`route_model.h`, which is not among the sources) is the record
  `RouteModel`: the straight-line distance, the neighbor lookup and the scale.
* `std::sort` is a parameter `sort`; `StdSort sort` is its contract.
* Loops carry a fuel counter; `Outcome.outOfFuel` is the only result that does
  not come from the source.
-/

namespace RoutePlanner

/-- A node pointer: the index of the node in the model. -/
abbrev NodeId := Nat

/-- The `RouteModel::Node` fields that the planner reads and writes. -/
structure Node where
  x : ℚ
  y : ℚ
  visited : Bool
  g_value : ℚ
  h_value : ℚ
  parent : Option NodeId
  neighbors : List NodeId
deriving DecidableEq

/-- Modelled from the spec: the Model Adapter (`route_model.h` is not among the
sources). `dist` is the straight-line distance between two coordinate pairs,
`FindNeighbors nodes c` is the list that `c->FindNeighbors()` stores in
`c->neighbors` when the node memory is `nodes`, `MetricScale` is the factor from
network units to meters. -/
structure RouteModel where
  dist : ℚ × ℚ → ℚ × ℚ → ℚ
  FindNeighbors : (NodeId → Node) → NodeId → List NodeId
  MetricScale : ℚ

/-- The members of `RoutePlanner` together with the node memory and the `path`
slot of the model it refers to. -/
structure Planner where
  nodes : NodeId → Node
  open_list : List NodeId
  start_node : NodeId
  end_node : NodeId
  distance : ℚ
  path : List Node

/-- The result of running a piece of code with a fuel bound: it returns a value,
it dereferences a null pointer, it takes `front()` of an empty vector, or the
fuel does not suffice. -/
inductive Outcome (α : Type) where
  | ret : α → Outcome α
  | nullDeref : Outcome α
  | emptyFront : Outcome α
  | outOfFuel : Outcome α

/-- The value of `std::sort(first, last, comp)` on a vector. -/
abbrev Sorter := (NodeId → NodeId → Bool) → List NodeId → List NodeId

/-- The requirement of the standard on the comparison object: a strict weak
ordering. -/
def StrictWeak (comp : NodeId → NodeId → Bool) : Prop :=
  (∀ a, comp a a = false) ∧
  (∀ a b c, comp a b = true → comp b c = true → comp a c = true) ∧
  (∀ a b c, comp a b = false → comp b c = false → comp a c = false)

/-- The contract of `std::sort`: the result is a rearrangement of the input and,
for a strict weak ordering, no element precedes one that is smaller. The order
of equivalent elements is free. -/
def StdSort (sort : Sorter) : Prop :=
  ∀ comp l, (sort comp l).Perm l ∧
    (StrictWeak comp → (sort comp l).Pairwise (fun a b => comp b a = false))

/-- The function `Node::distance`: the distance of the model between the coordinates. -/
def Node.distance (M : RouteModel) (a b : Node) : ℚ :=
  M.dist (a.x, a.y) (b.x, b.y)

/-- Assignment through a node pointer. -/
def setNode (nodes : NodeId → Node) (i : NodeId) (v : Node) : NodeId → Node :=
  fun j => if j = i then v else nodes j

/-- The function `RoutePlanner::CalculateHValue`. -/
def CalculateHValue (M : RouteModel) (rp : Planner) (node : NodeId) : ℚ :=
  (rp.nodes node).distance M (rp.nodes rp.end_node)

/-- Assignment to the node that a pointer refers to, inside the planner. -/
def Planner.store (rp : Planner) (i : NodeId) (v : Node) : Planner :=
  { rp with nodes := setNode rp.nodes i v }

/-- The body of the loop of `AddNeighbors` for one `neighbor`, statement by
statement. -/
def visitNeighbor (M : RouteModel) (current_node : NodeId) (rp : Planner)
    (neighbor : NodeId) : Planner :=
  let rp1 := rp.store neighbor { (rp.nodes neighbor) with visited := true }
  let rp2 := rp1.store neighbor { (rp1.nodes neighbor) with parent := some current_node }
  let rp3 := rp2.store neighbor
    { (rp2.nodes neighbor) with
      g_value := (rp2.nodes current_node).g_value +
        (rp2.nodes current_node).distance M (rp2.nodes neighbor) }
  let rp4 := rp3.store neighbor
    { (rp3.nodes neighbor) with h_value := CalculateHValue M rp3 neighbor }
  { rp4 with open_list := rp4.open_list ++ [neighbor] }

/-- The first statement of `AddNeighbors`: `current_node->FindNeighbors()` fills
`current_node->neighbors`. -/
def storeNeighbors (M : RouteModel) (rp : Planner) (current_node : NodeId) : Planner :=
  rp.store current_node
    { (rp.nodes current_node) with neighbors := M.FindNeighbors rp.nodes current_node }

/-- The function `RoutePlanner::AddNeighbors`. -/
def AddNeighbors (M : RouteModel) (rp : Planner) (current_node : NodeId) : Planner :=
  let rp0 := storeNeighbors M rp current_node
  (rp0.nodes current_node).neighbors.foldl (visitNeighbor M current_node) rp0

/-- The sum `g_value + h_value` that `Compare` computes for a node. -/
def fValue (nodes : NodeId → Node) (n : NodeId) : ℚ :=
  (nodes n).g_value + (nodes n).h_value

/-- The function `RoutePlanner::Compare`. -/
def Compare (nodes : NodeId → Node) (first second : NodeId) : Bool :=
  decide (fValue nodes first < fValue nodes second)

/-- The function `RoutePlanner::NextNode`; `front()` of an empty vector has no
value. -/
def NextNode (sort : Sorter) (rp : Planner) : Option (NodeId × Planner) :=
  match sort (Compare rp.nodes) rp.open_list with
  | [] => none
  | next_node :: rest => some (next_node, { rp with open_list := rest })

/-- The `while` loop of `ConstructFinalPath`: the state is `current_node`,
`distance` and `path_found`. -/
def walkParents (M : RouteModel) (nodes : NodeId → Node) (start_node : NodeId) :
    Nat → NodeId → ℚ → List Node → Outcome (NodeId × ℚ × List Node)
  | fuel, current_node, distance, path_found =>
    if (nodes start_node).x ≠ (nodes current_node).x ∧
        (nodes start_node).y ≠ (nodes current_node).y then
      match fuel with
      | 0 => Outcome.outOfFuel
      | fuel + 1 =>
        match (nodes current_node).parent with
        | none => Outcome.nullDeref
        | some p =>
          walkParents M nodes start_node fuel p
            (distance + (nodes current_node).distance M (nodes p))
            (path_found ++ [nodes current_node])
    else Outcome.ret (current_node, distance, path_found)

/-- The function `RoutePlanner::ConstructFinalPath`: the planner with the new
`distance`, and
the returned vector. -/
def ConstructFinalPath (M : RouteModel) (fuel : Nat) (rp : Planner)
    (current_node : NodeId) : Outcome (Planner × List Node) :=
  match walkParents M rp.nodes rp.start_node fuel current_node 0 [] with
  | Outcome.ret (last, distance, path_found) =>
    Outcome.ret
      ({ rp with distance := distance * M.MetricScale },
        (path_found ++ [rp.nodes last]).reverse)
  | Outcome.nullDeref => Outcome.nullDeref
  | Outcome.emptyFront => Outcome.emptyFront
  | Outcome.outOfFuel => Outcome.outOfFuel

/-- The `while` loop of `AStarSearch`: the planner and `current_node` when the
loop is left. -/
def searchLoop (M : RouteModel) (sort : Sorter) :
    Nat → Planner → NodeId → Outcome (Planner × NodeId)
  | fuel, rp, current_node =>
    if rp.open_list.length > 0 ∧ current_node ≠ rp.end_node then
      match fuel with
      | 0 => Outcome.outOfFuel
      | fuel + 1 =>
        match NextNode sort (AddNeighbors M rp current_node) with
        | none => Outcome.emptyFront
        | some (next, rp1) => searchLoop M sort fuel rp1 next
    else Outcome.ret (rp, current_node)

/-- The statements of `AStarSearch` before its loop. -/
def seedSearch (rp : Planner) : Planner :=
  let rp1 := rp.store rp.start_node { (rp.nodes rp.start_node) with visited := true }
  { rp1 with open_list := rp1.open_list ++ [rp1.start_node] }

/-- The function `RoutePlanner::AStarSearch`: the planner with the stored path. -/
def AStarSearch (M : RouteModel) (sort : Sorter) (fuel : Nat) (rp : Planner) :
    Outcome Planner :=
  match searchLoop M sort fuel (seedSearch rp) rp.start_node with
  | Outcome.ret (rp1, _) =>
    match ConstructFinalPath M fuel rp1 rp1.end_node with
    | Outcome.ret (rp2, path_found) => Outcome.ret { rp2 with path := path_found }
    | Outcome.nullDeref => Outcome.nullDeref
    | Outcome.emptyFront => Outcome.emptyFront
    | Outcome.outOfFuel => Outcome.outOfFuel
  | Outcome.nullDeref => Outcome.nullDeref
  | Outcome.emptyFront => Outcome.emptyFront
  | Outcome.outOfFuel => Outcome.outOfFuel

/-! ## An implementation of `std::sort`, a distance, and small networks -/

/-- Insertion of `a` in front of the first element that is not smaller. -/
def orderedInsert (comp : NodeId → NodeId → Bool) (a : NodeId) : List NodeId → List NodeId
  | [] => [a]
  | b :: l => if comp b a then b :: orderedInsert comp a l else a :: b :: l

/-- Insertion sort, one implementation that meets the contract of `std::sort`. -/
def insertionSort : Sorter := fun comp l => l.foldr (orderedInsert comp) []

/-- Modelled from the spec: the straight-line distance of `Node::distance`
(`route_model.h` is not among the sources), with the rational square root; it is
the Euclidean distance whenever that distance is rational, as it is between all
nodes of the networks below. -/
def euclid (p q : ℚ × ℚ) : ℚ := Rat.sqrt ((p.1 - q.1) ^ 2 + (p.2 - q.2) ^ 2)

/-- A node that no search has touched. -/
def freshNode (x y : ℚ) : Node :=
  { x := x, y := y, visited := false, g_value := 0, h_value := 0, parent := none,
    neighbors := [] }

/-- The sum, over the consecutive pairs `(p, c)` of a path, of `distance(c, p)`. -/
def pathLength (M : RouteModel) : List Node → ℚ
  | p :: c :: rest => c.distance M p + pathLength M (c :: rest)
  | _ => 0

/-- The sum, over the consecutive pairs `(c, p)` of a list, of `distance(c, p)`:
the list is in the order in which `ConstructFinalPath` meets the nodes. -/
def chainLength (M : RouteModel) : List Node → ℚ
  | c :: p :: rest => c.distance M p + chainLength M (p :: rest)
  | _ => 0

/-- The parent pointer of each element is the element that follows it. -/
def ParentChain (nodes : NodeId → Node) : List NodeId → Prop
  | c :: p :: rest => (nodes c).parent = some p ∧ ParentChain nodes (p :: rest)
  | _ => True

/-- The value that was returned, if any. -/
def Outcome.toOption {α : Type} : Outcome α → Option α
  | Outcome.ret a => some a
  | _ => none

/-- Whether the run stopped at the dereference of a null pointer. -/
def Outcome.isNullDeref {α : Type} : Outcome α → Bool
  | Outcome.nullDeref => true
  | _ => false

/-- The coordinates of the elements of a path. -/
def coordsOf (path : List Node) : List (ℚ × ℚ) :=
  path.map (fun n => (n.x, n.y))

/-- Two nodes in one column: the start `0` at `(0, 0)` and the goal `1` at
`(0, 1)`, joined by the edge from `0` to `1`. -/
def columnNodes : NodeId → Node
  | 0 => freshNode 0 0
  | _ => freshNode 0 1

/-- The neighbor lists of the column network. -/
def columnAdj : NodeId → List NodeId
  | 0 => [1]
  | _ => []

/-- The model of the column network. -/
def columnModel : RouteModel :=
  { dist := euclid, FindNeighbors := fun _ c => columnAdj c, MetricScale := 1 }

/-- A planner on the column network before the search. -/
def columnPlanner : Planner :=
  { nodes := columnNodes, open_list := [], start_node := 0, end_node := 1,
    distance := 0, path := [] }

/-- Two nodes and no edge: the start `0` at `(0, 0)` and the goal `1` at
`(1, 1)`. -/
def islandNodes : NodeId → Node
  | 0 => freshNode 0 0
  | _ => freshNode 1 1

/-- The model of the island network. -/
def islandModel : RouteModel :=
  { dist := euclid, FindNeighbors := fun _ _ => [], MetricScale := 1 }

/-- A planner on the island network before the search. -/
def islandPlanner : Planner :=
  { nodes := islandNodes, open_list := [], start_node := 0, end_node := 1,
    distance := 0, path := [] }

/-- Four nodes: the start `0` at `(0, 0)`, node `1` at `(-4, -3)`, node `2` at
`(-4, 3)` and the goal `3` at `(4, 3)`; no node other than the start has a
coordinate of the start. -/
def detourNodes : NodeId → Node
  | 0 => freshNode 0 0
  | 1 => freshNode (-4) (-3)
  | 2 => freshNode (-4) 3
  | _ => freshNode 4 3

/-- The edges of the detour network: `0 → 1`, `0 → 2`, `2 → 1` and `1 → 3`. -/
def detourAdj : NodeId → List NodeId
  | 0 => [1, 2]
  | 1 => [3]
  | 2 => [1]
  | _ => []

/-- The model of the detour network. -/
def detourModel : RouteModel :=
  { dist := euclid, FindNeighbors := fun _ c => detourAdj c, MetricScale := 1 }

/-- A planner on the detour network before the search. -/
def detourPlanner : Planner :=
  { nodes := detourNodes, open_list := [], start_node := 0, end_node := 3,
    distance := 0, path := [] }

/-- A model whose neighbor lookup returns the list `[1, 0, 1]` for every node:
the list repeats node `1` and, for node `0`, contains the node itself. -/
def repeatModel : RouteModel :=
  { dist := euclid, FindNeighbors := fun _ _ => [1, 0, 1], MetricScale := 1 }

/-- Three nodes on a line, each with the one before it as parent: the start `0`
at `(0, 0)`, node `1` at `(3, 4)` and the goal `2` at `(6, 8)`. -/
def chainNodes : NodeId → Node
  | 0 => freshNode 0 0
  | 1 => { freshNode 3 4 with visited := true, g_value := 5, h_value := 5, parent := some 0 }
  | _ => { freshNode 6 8 with visited := true, g_value := 10, parent := some 1 }

/-- A planner whose nodes carry the parent chain `2 → 1 → 0`, with scale 2 and a
stale `distance`. -/
def chainPlanner : Planner :=
  { nodes := chainNodes, open_list := [2], start_node := 0, end_node := 2,
    distance := 77, path := [] }

/-- The model of the chain network: scale factor 2. -/
def chainModel : RouteModel :=
  { dist := euclid, FindNeighbors := fun _ _ => [], MetricScale := 2 }

/-- The neighbor lookup returns the fixed list `adj c` for `c` on every call. -/
def FixedAdjacency (M : RouteModel) (adj : NodeId → List NodeId) : Prop :=
  ∀ nodes c, M.FindNeighbors nodes c = adj c

/-- The state before any search: the frontier is empty, no node is visited,
every `g_value` is 0 and no parent is set. -/
def Fresh (rp : Planner) : Prop :=
  rp.open_list = [] ∧
    ∀ n, (rp.nodes n).visited = false ∧ (rp.nodes n).g_value = 0 ∧ (rp.nodes n).parent = none

/-- Each element is in the neighbor list of the element before it. -/
def EdgePath (adj : NodeId → List NodeId) : List NodeId → Prop
  | a :: b :: rest => b ∈ adj a ∧ EdgePath adj (b :: rest)
  | _ => True

/-- An edge path from `s` to `t`. -/
def Route (adj : NodeId → List NodeId) (s t : NodeId) (l : List NodeId) : Prop :=
  l.head? = some s ∧ l.getLast? = some t ∧ EdgePath adj l

/-- The sum of the edge distances `distance(a, b)` along a list of nodes. -/
def routeCost (M : RouteModel) (nodes : NodeId → Node) : List NodeId → ℚ
  | a :: b :: rest => (nodes a).distance M (nodes b) + routeCost M nodes (b :: rest)
  | _ => 0

/-- The number `m` is the minimum of the cost over the edge paths from `s` to `t`. -/
def IsMinRouteCost (M : RouteModel) (adj : NodeId → List NodeId) (nodes : NodeId → Node)
    (s t : NodeId) (m : ℚ) : Prop :=
  (∃ l, Route adj s t l ∧ routeCost M nodes l = m) ∧
    ∀ l, Route adj s t l → m ≤ routeCost M nodes l

/-- The number of nodes below `N` that are not visited. -/
def unvisitedCount (nodes : NodeId → Node) (N : Nat) : Nat :=
  ((List.range N).filter (fun n => !(nodes n).visited)).length

/-- Three nodes: the start `0` at `(0, 0)` and node `1` at `(3, 4)`, each the
only neighbor of the other, and the goal `2` at `(6, 8)` with no edge. -/
def pingNodes : NodeId → Node
  | 0 => freshNode 0 0
  | 1 => freshNode 3 4
  | _ => freshNode 6 8

/-- The neighbor lists of the ping network. -/
def pingAdj : NodeId → List NodeId
  | 0 => [1]
  | 1 => [0]
  | _ => []

/-- The model of the ping network with the same list on every call. -/
def pingModel : RouteModel :=
  { dist := euclid, FindNeighbors := fun _ c => pingAdj c, MetricScale := 1 }

/-- The model of the ping network with a lookup that leaves out visited nodes. -/
def pingUnvisitedModel : RouteModel :=
  { dist := euclid,
    FindNeighbors := fun nodes c => (pingAdj c).filter (fun n => !(nodes n).visited),
    MetricScale := 1 }

/-- A planner on the ping network before the search. -/
def pingPlanner : Planner :=
  { nodes := pingNodes, open_list := [], start_node := 0, end_node := 2,
    distance := 0, path := [] }

/-- The invariant of the loop of `AStarSearch` behind "exhaustion means no
route", for the set `E` of the nodes that were passed to `AddNeighbors`: the
start is expanded or pending; every neighbor of an expanded node is pending or
expanded; every pending node is expanded or can be reached from another pending
entry; the goal is not expanded. The pending entries are `current_node` and the
entries of the frontier. -/
def Covered (adj : NodeId → List NodeId) (start goal : NodeId) (E : NodeId → Prop)
    (rp : Planner) (cur : NodeId) : Prop :=
  (E start ∨ start ∈ cur :: rp.open_list) ∧
  (∀ p, E p → ∀ v ∈ adj p, v ∈ cur :: rp.open_list ∨ E v) ∧
  (∀ v ∈ cur :: rp.open_list, E v ∨
    ∃ u ∈ (cur :: rp.open_list).erase v, Relation.ReflTransGen (fun a b => b ∈ adj a) u v) ∧
  ¬ E goal

/-- Three nodes: the start `0` at `(0, 0)` with the edge to node `1` at `(3, 4)`,
which has no neighbor, and the goal `2` at `(6, 8)` with no edge. -/
def deadEndAdj : NodeId → List NodeId
  | 0 => [1]
  | _ => []

/-- The model of the dead-end network, on the nodes of the ping network. -/
def deadEndModel : RouteModel :=
  { dist := euclid, FindNeighbors := fun _ c => deadEndAdj c, MetricScale := 1 }

/-- Every node whose parent is set is in the neighbor list of its parent. -/
def ParentsAreEdges (adj : NodeId → List NodeId) (nodes : NodeId → Node) : Prop :=
  ∀ n p, (nodes n).parent = some p → n ∈ adj p

/-- On the nodes of the list `ids` the distance of the model is a metric: it is
not negative, zero exactly between a node and itself, symmetric, and satisfies
the triangle inequality. -/
def MetricOn (M : RouteModel) (nodes : NodeId → Node) (ids : List NodeId) : Prop :=
  ∀ a ∈ ids, ∀ b ∈ ids, ∀ c ∈ ids,
    0 ≤ (nodes a).distance M (nodes b) ∧
    ((nodes a).distance M (nodes b) = 0 ↔ a = b) ∧
    (nodes a).distance M (nodes b) = (nodes b).distance M (nodes a) ∧
    (nodes a).distance M (nodes c) ≤
      (nodes a).distance M (nodes b) + (nodes b).distance M (nodes c)

/-- The loop of `AStarSearch` after `k` iterations, if it runs that long: the
planner and `current_node` at the loop condition, and the list `expanded` of the
nodes that were passed to `AddNeighbors`, in order, after the ones in the
argument. -/
def searchSteps (M : RouteModel) (sort : Sorter) :
    Nat → Planner → NodeId → List NodeId → Option (Planner × NodeId × List NodeId)
  | 0, rp, current_node, expanded => some (rp, current_node, expanded)
  | k + 1, rp, current_node, expanded =>
    if rp.open_list.length > 0 ∧ current_node ≠ rp.end_node then
      match NextNode sort (AddNeighbors M rp current_node) with
      | none => none
      | some (next, rp1) => searchSteps M sort k rp1 next (expanded ++ [current_node])
    else none

/-- The constructor `RoutePlanner::RoutePlanner`. The argument `rp` holds the
members as their initializers leave them together with the memory of the model;
the body scales the four inputs by `0.01` and assigns `start_node` and
`end_node`. Modelled from the spec: `FindClosestNode` is the nearest-node lookup
of the Model Adapter (`route_model.h` is not among the sources), a query on the
node memory. -/
def construct (FindClosestNode : (NodeId → Node) → ℚ → ℚ → NodeId) (rp : Planner)
    (start_x start_y end_x end_y : ℚ) : Planner :=
  let start_x := start_x * 0.01
  let start_y := start_y * 0.01
  let end_x := end_x * 0.01
  let end_y := end_y * 0.01
  let rp1 := { rp with start_node := FindClosestNode rp.nodes start_x start_y }
  { rp1 with end_node := FindClosestNode rp1.nodes end_x end_y }

/-- The distance is a metric: not negative, symmetric, zero between a point and
itself, and it satisfies the triangle inequality. -/
def IsMetric (dist : ℚ × ℚ → ℚ × ℚ → ℚ) : Prop :=
  (∀ p q, 0 ≤ dist p q) ∧ (∀ p q, dist p q = dist q p) ∧ (∀ p, dist p p = 0) ∧
    ∀ p q r, dist p r ≤ dist p q + dist q r

/-- The neighbor lookup returns only nodes that are not visited. -/
def OnlyUnvisited (M : RouteModel) : Prop :=
  ∀ nodes c, ∀ n ∈ M.FindNeighbors nodes c, (nodes n).visited = false

/-- The neighbor lookup returns no node twice in one list. -/
def NoRepeats (M : RouteModel) : Prop :=
  ∀ nodes c, (M.FindNeighbors nodes c).Nodup

/-- Following the parent pointers from the node leads to `start`, through nodes
that are visited. -/
inductive Anchored (nodes : NodeId → Node) (start : NodeId) : NodeId → Prop where
  | base : Anchored nodes start start
  | step (n p : NodeId) : (nodes n).visited = true → (nodes n).parent = some p →
      Anchored nodes start p → Anchored nodes start n

/-- No two entries of the list have the same sum `g_value + h_value`. -/
def distinctF (nodes : NodeId → Node) (l : List NodeId) : Prop :=
  l.Pairwise (fun a b => fValue nodes a ≠ fValue nodes b)

/-- Whether two entries of the list have the same sum can be computed. -/
instance distinctFDecidable (nodes : NodeId → Node) (l : List NodeId) :
    Decidable (distinctF nodes l) :=
  inferInstanceAs (Decidable (l.Pairwise (fun a b => fValue nodes a ≠ fValue nodes b)))

/-- In each of the first `fuel` iterations of the loop of `AStarSearch`, the
frontier that `NextNode` sorts has no two entries with the same sum
`g_value + h_value`. -/
def noTies (M : RouteModel) (sort : Sorter) : Nat → Planner → NodeId → Bool
  | 0, _, _ => true
  | fuel + 1, rp, current_node =>
    if rp.open_list.length > 0 ∧ current_node ≠ rp.end_node then
      decide (distinctF (AddNeighbors M rp current_node).nodes
        (AddNeighbors M rp current_node).open_list) &&
        match NextNode sort (AddNeighbors M rp current_node) with
        | none => true
        | some (next, rp1) => noTies M sort fuel rp1 next
    else true

/-- Insertion sort of the reversed vector: it meets the contract of `std::sort`
and arranges equivalent elements in the opposite order. -/
def reverseSort : Sorter := fun comp l => insertionSort comp l.reverse

/-- The distance `|dx| + |dy|`, a metric on all coordinate pairs. -/
def taxicab (p q : ℚ × ℚ) : ℚ := |p.1 - q.1| + |p.2 - q.2|

/-- The model of the detour network with the taxicab distance. -/
def taxiModel : RouteModel :=
  { dist := taxicab, FindNeighbors := fun _ c => detourAdj c, MetricScale := 1 }

/-- The model of the detour network with a lookup that leaves out visited nodes. -/
def detourUnvisitedModel : RouteModel :=
  { dist := euclid,
    FindNeighbors := fun nodes c => (detourAdj c).filter (fun n => !(nodes n).visited),
    MetricScale := 1 }

/-- Four nodes on a line: the start `0` at `(0, 0)`, node `1` at `(3, 4)`, node
`2` at `(6, 8)` and node `3` at `(9, 12)`. -/
def lineNodes : NodeId → Node
  | 0 => freshNode 0 0
  | 1 => freshNode 3 4
  | 2 => freshNode 6 8
  | _ => freshNode 9 12

/-- The neighbor lists of the line network: every segment in both directions. -/
def lineAdj : NodeId → List NodeId
  | 0 => [1]
  | 1 => [0, 2]
  | 2 => [1, 3]
  | _ => [2]

/-- The model of the line network with the same list on every call. -/
def lineModel : RouteModel :=
  { dist := euclid, FindNeighbors := fun _ c => lineAdj c, MetricScale := 1 }

/-- A planner on the line network before the search, with goal `3`. -/
def linePlanner : Planner :=
  { nodes := lineNodes, open_list := [], start_node := 0, end_node := 3,
    distance := 0, path := [] }

/-- The neighbor lists of the fork network on the nodes of the detour network:
`0 → 1`, `0 → 2` and `2 → 3`. -/
def forkAdj : NodeId → List NodeId
  | 0 => [1, 2]
  | 2 => [3]
  | _ => []

/-- The model of the fork network with a lookup that leaves out visited nodes. -/
def forkUnvisitedModel : RouteModel :=
  { dist := euclid,
    FindNeighbors := fun nodes c => (forkAdj c).filter (fun n => !(nodes n).visited),
    MetricScale := 1 }

/-- A planner on the line network before the search, with goal `2`. -/
def lineMidPlanner : Planner :=
  { nodes := lineNodes, open_list := [], start_node := 0, end_node := 2,
    distance := 0, path := [] }

/-! ## The comparison and the sort -/

theorem Compare_strictWeak (nodes : NodeId → Node) : StrictWeak (Compare nodes) := by
  refine ⟨?_, ?_, ?_⟩
  · intro a
    simp [Compare]
  · intro a b c hab hbc
    simp only [Compare, decide_eq_true_eq] at *
    exact lt_trans hab hbc
  · intro a b c hab hbc
    simp only [Compare, decide_eq_false_iff_not, not_lt] at *
    exact le_trans hbc hab

theorem sorted_head_le (sort : Sorter) (hs : StdSort sort) (nodes : NodeId → Node)
    (l : List NodeId) (n : NodeId) (rest : List NodeId)
    (h : sort (Compare nodes) l = n :: rest) :
    ∀ m ∈ l, fValue nodes n ≤ fValue nodes m := by
  intro m hm
  obtain ⟨hperm, hsorted⟩ := hs (Compare nodes) l
  have hpw := hsorted (Compare_strictWeak nodes)
  rw [h] at hperm hpw
  have hm' : m ∈ n :: rest := hperm.symm.subset hm
  rcases List.mem_cons.mp hm' with rfl | hmr
  · exact le_refl _
  · have := List.rel_of_pairwise_cons hpw hmr
    simpa [Compare] using this

theorem NextNode_spec (sort : Sorter) (hs : StdSort sort) (rp : Planner)
    (h : rp.open_list ≠ []) :
    ∃ n rest, NextNode sort rp = some (n, { rp with open_list := rest }) ∧
      sort (Compare rp.nodes) rp.open_list = n :: rest ∧
      (n :: rest).Perm rp.open_list := by
  obtain ⟨hperm, -⟩ := hs (Compare rp.nodes) rp.open_list
  cases hl : sort (Compare rp.nodes) rp.open_list with
  | nil =>
    rw [hl] at hperm
    exact absurd (List.Perm.nil_eq hperm) (fun e => h e.symm)
  | cons n rest =>
    refine ⟨n, rest, ?_, rfl, ?_⟩
    · simp [NextNode, hl]
    · rw [← hl]; exact hperm

/-- C9. On a non-empty frontier `NextNode` returns an entry `n` of the frontier
whose `g_value + h_value` is at most that of every entry, and leaves the
frontier with one occurrence of `n` removed (as a multiset), one entry shorter;
no node is changed. This holds for every `std::sort` that meets its contract. -/
theorem NextNode_extracts_minimum (sort : Sorter) (hs : StdSort sort) (rp : Planner)
    (h : rp.open_list ≠ []) :
    ∃ n rp', NextNode sort rp = some (n, rp') ∧
      n ∈ rp.open_list ∧
      (∀ m ∈ rp.open_list,
        (rp.nodes n).g_value + (rp.nodes n).h_value ≤
          (rp.nodes m).g_value + (rp.nodes m).h_value) ∧
      rp'.open_list.Perm (rp.open_list.erase n) ∧
      rp'.open_list.length + 1 = rp.open_list.length ∧
      rp'.nodes = rp.nodes := by
  obtain ⟨n, rest, hnext, hsort, hperm⟩ := NextNode_spec sort hs rp h
  refine ⟨n, { rp with open_list := rest }, hnext, ?_, ?_, ?_, ?_, rfl⟩
  · exact hperm.subset (List.mem_cons_self n rest)
  · exact sorted_head_le sort hs rp.nodes rp.open_list n rest hsort
  · have := hperm.erase n
    simpa using this
  · have := hperm.length_eq
    simpa using this

/-! ## Insertion sort meets the contract of `std::sort` -/

theorem orderedInsert_perm (comp : NodeId → NodeId → Bool) (a : NodeId) (l : List NodeId) :
    (orderedInsert comp a l).Perm (a :: l) := by
  induction l with
  | nil => simp [orderedInsert]
  | cons b l ih =>
    unfold orderedInsert
    split
    · exact (List.Perm.cons b ih).trans (List.Perm.swap a b l)
    · exact List.Perm.refl _

theorem orderedInsert_sorted (comp : NodeId → NodeId → Bool) (hc : StrictWeak comp)
    (a : NodeId) (l : List NodeId) (hl : l.Pairwise (fun x y => comp y x = false)) :
    (orderedInsert comp a l).Pairwise (fun x y => comp y x = false) := by
  obtain ⟨hirr, htrans, hneg⟩ := hc
  induction l with
  | nil => simp [orderedInsert]
  | cons b l ih =>
    have hbl : ∀ y ∈ l, comp y b = false := fun y hy => List.rel_of_pairwise_cons hl hy
    have hl' := List.Pairwise.of_cons hl
    unfold orderedInsert
    split
    · rename_i hba
      refine List.Pairwise.cons ?_ (ih hl')
      intro y hy
      rcases List.mem_cons.mp ((orderedInsert_perm comp a l).subset hy) with rfl | hyl
      · cases hyb : comp y b with
        | false => rfl
        | true =>
          have := htrans _ _ _ hba hyb
          rw [hirr] at this
          exact absurd this (by simp)
      · exact hbl y hyl
    · rename_i hba
      have hba' : comp b a = false := by simpa using hba
      refine List.Pairwise.cons ?_ hl
      intro y hy
      rcases List.mem_cons.mp hy with rfl | hyl
      · exact hba'
      · exact hneg _ _ _ (hbl y hyl) hba'

theorem insertionSort_stdSort : StdSort insertionSort := by
  intro comp l
  constructor
  · induction l with
    | nil => simp [insertionSort]
    | cons a l ih =>
      have : insertionSort comp (a :: l) = orderedInsert comp a (insertionSort comp l) := rfl
      rw [this]
      exact (orderedInsert_perm comp a _).trans (List.Perm.cons a ih)
  · intro hc
    induction l with
    | nil => simp [insertionSort]
    | cons a l ih =>
      have : insertionSort comp (a :: l) = orderedInsert comp a (insertionSort comp l) := rfl
      rw [this]
      exact orderedInsert_sorted comp hc a _ ih

/-! ## The loop of `AddNeighbors` -/

section fold
variable (M : RouteModel) (c : NodeId)

theorem setNode_same (nodes : NodeId → Node) (i : NodeId) (v : Node) :
    setNode nodes i v i = v := by
  simp [setNode]

theorem setNode_other (nodes : NodeId → Node) (i j : NodeId) (v : Node) (h : j ≠ i) :
    setNode nodes i v j = nodes j := by
  simp [setNode, h]

/-- The four assignments of the loop body of `AddNeighbors` as one. -/
theorem visitNeighbor_eq (rp : Planner) (n : NodeId) :
    visitNeighbor M c rp n =
      { rp with
        nodes := setNode rp.nodes n
          { (rp.nodes n) with
            visited := true, parent := some c,
            g_value := (rp.nodes c).g_value + (rp.nodes c).distance M (rp.nodes n),
            h_value := (rp.nodes n).distance M (rp.nodes rp.end_node) }
        open_list := rp.open_list ++ [n] } := by
  have hnodes : (visitNeighbor M c rp n).nodes = setNode rp.nodes n
      { (rp.nodes n) with
        visited := true, parent := some c,
        g_value := (rp.nodes c).g_value + (rp.nodes c).distance M (rp.nodes n),
        h_value := (rp.nodes n).distance M (rp.nodes rp.end_node) } := by
    funext j
    by_cases hj : j = n <;> by_cases hc : c = n <;> by_cases he : rp.end_node = n <;>
      simp [visitNeighbor, Planner.store, setNode, CalculateHValue, Node.distance, hj, hc, he]
  have hrest : (visitNeighbor M c rp n).open_list = rp.open_list ++ [n] ∧
      (visitNeighbor M c rp n).start_node = rp.start_node ∧
      (visitNeighbor M c rp n).end_node = rp.end_node ∧
      (visitNeighbor M c rp n).distance = rp.distance ∧
      (visitNeighbor M c rp n).path = rp.path := ⟨rfl, rfl, rfl, rfl, rfl⟩
  cases hv : visitNeighbor M c rp n with
  | mk nodes open_list start_node end_node distance path =>
    rw [hv] at hnodes hrest
    simp only at hnodes hrest
    obtain ⟨h1, h2, h3, h4, h5⟩ := hrest
    subst hnodes h1 h2 h3 h4 h5
    rfl

theorem fold_open_list (L : List NodeId) (rp : Planner) :
    (L.foldl (visitNeighbor M c) rp).open_list = rp.open_list ++ L := by
  induction L generalizing rp with
  | nil => simp
  | cons a L ih => rw [List.foldl_cons, ih]; simp [visitNeighbor_eq]

theorem fold_ends (L : List NodeId) (rp : Planner) :
    (L.foldl (visitNeighbor M c) rp).start_node = rp.start_node ∧
    (L.foldl (visitNeighbor M c) rp).end_node = rp.end_node ∧
    (L.foldl (visitNeighbor M c) rp).distance = rp.distance ∧
    (L.foldl (visitNeighbor M c) rp).path = rp.path := by
  induction L generalizing rp with
  | nil => simp
  | cons a L ih => rw [List.foldl_cons]; simpa [visitNeighbor] using ih (visitNeighbor M c rp a)

theorem fold_coords (L : List NodeId) (rp : Planner) (n : NodeId) :
    ((L.foldl (visitNeighbor M c) rp).nodes n).x = (rp.nodes n).x ∧
    ((L.foldl (visitNeighbor M c) rp).nodes n).y = (rp.nodes n).y ∧
    ((L.foldl (visitNeighbor M c) rp).nodes n).neighbors = (rp.nodes n).neighbors := by
  induction L generalizing rp with
  | nil => simp
  | cons a L ih =>
    rw [List.foldl_cons]
    obtain ⟨h1, h2, h3⟩ := ih (visitNeighbor M c rp a)
    rw [h1, h2, h3]
    by_cases h : n = a
    · subst h; simp [visitNeighbor_eq, setNode]
    · simp [visitNeighbor_eq, setNode, h]

theorem fold_distance (L : List NodeId) (rp : Planner) (a b : NodeId) :
    ((L.foldl (visitNeighbor M c) rp).nodes a).distance M
      ((L.foldl (visitNeighbor M c) rp).nodes b) = (rp.nodes a).distance M (rp.nodes b) := by
  obtain ⟨h1, h2, -⟩ := fold_coords M c L rp a
  obtain ⟨h3, h4, -⟩ := fold_coords M c L rp b
  simp [Node.distance, h1, h2, h3, h4]

theorem visit_distance (rp : Planner) (n a b : NodeId) :
    ((visitNeighbor M c rp n).nodes a).distance M ((visitNeighbor M c rp n).nodes b) =
      (rp.nodes a).distance M (rp.nodes b) :=
  fold_distance M c [n] rp a b

theorem fold_frame (L : List NodeId) (rp : Planner) (n : NodeId) (hn : n ∉ L) :
    (L.foldl (visitNeighbor M c) rp).nodes n = rp.nodes n := by
  induction L generalizing rp with
  | nil => simp
  | cons a L ih =>
    rw [List.foldl_cons, ih _ (fun h => hn (List.mem_cons_of_mem a h))]
    have : n ≠ a := fun h => hn (h ▸ List.mem_cons_self _ _)
    simp [visitNeighbor_eq, setNode, this]

theorem fold_marks (L : List NodeId) (rp : Planner) (n : NodeId) (hn : n ∈ L) :
    ((L.foldl (visitNeighbor M c) rp).nodes n).visited = true ∧
    ((L.foldl (visitNeighbor M c) rp).nodes n).parent = some c ∧
    ((L.foldl (visitNeighbor M c) rp).nodes n).h_value =
      (rp.nodes n).distance M (rp.nodes rp.end_node) := by
  induction L generalizing rp with
  | nil => simp at hn
  | cons a L ih =>
    rw [List.foldl_cons]
    by_cases hL : n ∈ L
    · obtain ⟨h1, h2, h3⟩ := ih (visitNeighbor M c rp a) hL
      refine ⟨h1, h2, ?_⟩
      rw [h3]
      have e : (visitNeighbor M c rp a).end_node = rp.end_node := rfl
      rw [e]
      exact visit_distance M c rp a n rp.end_node
    · have hna : n = a := by
        rcases List.mem_cons.mp hn with h | h
        · exact h
        · exact absurd h hL
      subst hna
      rw [fold_frame M c L _ n hL]
      simp [visitNeighbor_eq, setNode, CalculateHValue]

theorem fold_g_current (L : List NodeId) (rp : Planner)
    (hz : c ∈ L → (rp.nodes c).distance M (rp.nodes c) = 0) :
    ((L.foldl (visitNeighbor M c) rp).nodes c).g_value = (rp.nodes c).g_value := by
  induction L generalizing rp with
  | nil => simp
  | cons a L ih =>
    rw [List.foldl_cons, ih]
    · by_cases h : c = a
      · subst h
        have := hz (List.mem_cons_self _ _)
        simp [visitNeighbor_eq, setNode, this]
      · simp [visitNeighbor_eq, setNode, h]
    · intro hc
      rw [visit_distance M c rp a c c]
      exact hz (List.mem_cons_of_mem a hc)

theorem fold_g (L : List NodeId) (rp : Planner)
    (hz : c ∈ L → (rp.nodes c).distance M (rp.nodes c) = 0) (n : NodeId) (hn : n ∈ L) :
    ((L.foldl (visitNeighbor M c) rp).nodes n).g_value =
      (rp.nodes c).g_value + (rp.nodes c).distance M (rp.nodes n) := by
  induction L generalizing rp with
  | nil => simp at hn
  | cons a L ih =>
    rw [List.foldl_cons]
    have hg : ((visitNeighbor M c rp a).nodes c).g_value = (rp.nodes c).g_value := by
      by_cases hca : c = a
      · subst hca
        have := hz (List.mem_cons_self _ _)
        simp [visitNeighbor_eq, setNode, this]
      · simp [visitNeighbor_eq, setNode, hca]
    by_cases hL : n ∈ L
    · rw [ih (visitNeighbor M c rp a) _ hL, hg, visit_distance]
      intro hc
      rw [visit_distance]
      exact hz (List.mem_cons_of_mem a hc)
    · have hna : n = a := by
        rcases List.mem_cons.mp hn with h | h
        · exact h
        · exact absurd h hL
      subst hna
      rw [fold_frame M c L _ n hL]
      simp [visitNeighbor_eq, setNode]

end fold

/-! ## `AddNeighbors` -/

theorem stored_neighbors (M : RouteModel) (rp : Planner) (c : NodeId) :
    ((storeNeighbors M rp c).nodes c).neighbors = M.FindNeighbors rp.nodes c := by
  simp [storeNeighbors, Planner.store, setNode]

theorem stored_fields (M : RouteModel) (rp : Planner) (c n : NodeId) :
    ((storeNeighbors M rp c).nodes n).x = (rp.nodes n).x ∧
    ((storeNeighbors M rp c).nodes n).y = (rp.nodes n).y ∧
    ((storeNeighbors M rp c).nodes n).visited = (rp.nodes n).visited ∧
    ((storeNeighbors M rp c).nodes n).parent = (rp.nodes n).parent ∧
    ((storeNeighbors M rp c).nodes n).g_value = (rp.nodes n).g_value ∧
    ((storeNeighbors M rp c).nodes n).h_value = (rp.nodes n).h_value := by
  by_cases h : n = c
  · subst h; simp [storeNeighbors, Planner.store, setNode]
  · simp [storeNeighbors, Planner.store, setNode, h]

theorem stored_distance (M : RouteModel) (rp : Planner) (c a b : NodeId) :
    ((storeNeighbors M rp c).nodes a).distance M ((storeNeighbors M rp c).nodes b) =
      (rp.nodes a).distance M (rp.nodes b) := by
  obtain ⟨h1, h2, -⟩ := stored_fields M rp c a
  obtain ⟨h3, h4, -⟩ := stored_fields M rp c b
  simp [Node.distance, h1, h2, h3, h4]

theorem AddNeighbors_eq (M : RouteModel) (rp : Planner) (c : NodeId) :
    AddNeighbors M rp c =
      (M.FindNeighbors rp.nodes c).foldl (visitNeighbor M c) (storeNeighbors M rp c) := by
  simp [AddNeighbors, stored_neighbors]

theorem AddNeighbors_open_list (M : RouteModel) (rp : Planner) (c : NodeId) :
    (AddNeighbors M rp c).open_list = rp.open_list ++ M.FindNeighbors rp.nodes c := by
  rw [AddNeighbors_eq, fold_open_list]; rfl

theorem AddNeighbors_ends (M : RouteModel) (rp : Planner) (c : NodeId) :
    (AddNeighbors M rp c).start_node = rp.start_node ∧
    (AddNeighbors M rp c).end_node = rp.end_node ∧
    (AddNeighbors M rp c).distance = rp.distance ∧
    (AddNeighbors M rp c).path = rp.path := by
  rw [AddNeighbors_eq]
  exact fold_ends M c (M.FindNeighbors rp.nodes c) (storeNeighbors M rp c)

theorem AddNeighbors_coords (M : RouteModel) (rp : Planner) (c n : NodeId) :
    ((AddNeighbors M rp c).nodes n).x = (rp.nodes n).x ∧
    ((AddNeighbors M rp c).nodes n).y = (rp.nodes n).y := by
  obtain ⟨h1, h2, -⟩ := fold_coords M c (M.FindNeighbors rp.nodes c) (storeNeighbors M rp c) n
  obtain ⟨h3, h4, -⟩ := stored_fields M rp c n
  rw [AddNeighbors_eq, h1, h2, h3, h4]
  exact ⟨rfl, rfl⟩

theorem AddNeighbors_distance (M : RouteModel) (rp : Planner) (c a b : NodeId) :
    ((AddNeighbors M rp c).nodes a).distance M ((AddNeighbors M rp c).nodes b) =
      (rp.nodes a).distance M (rp.nodes b) := by
  obtain ⟨h1, h2⟩ := AddNeighbors_coords M rp c a
  obtain ⟨h3, h4⟩ := AddNeighbors_coords M rp c b
  simp [Node.distance, h1, h2, h3, h4]

theorem AddNeighbors_marks (M : RouteModel) (rp : Planner) (c n : NodeId)
    (hn : n ∈ M.FindNeighbors rp.nodes c) :
    ((AddNeighbors M rp c).nodes n).visited = true ∧
    ((AddNeighbors M rp c).nodes n).parent = some c ∧
    ((AddNeighbors M rp c).nodes n).h_value =
      (rp.nodes n).distance M (rp.nodes rp.end_node) := by
  obtain ⟨h1, h2, h3⟩ := fold_marks M c (M.FindNeighbors rp.nodes c) (storeNeighbors M rp c) n hn
  rw [AddNeighbors_eq]
  refine ⟨h1, h2, ?_⟩
  rw [h3]
  exact stored_distance M rp c n rp.end_node

theorem AddNeighbors_g (M : RouteModel) (rp : Planner) (c n : NodeId)
    (hn : n ∈ M.FindNeighbors rp.nodes c)
    (hz : c ∈ M.FindNeighbors rp.nodes c → (rp.nodes c).distance M (rp.nodes c) = 0) :
    ((AddNeighbors M rp c).nodes n).g_value =
      (rp.nodes c).g_value + (rp.nodes c).distance M (rp.nodes n) := by
  rw [AddNeighbors_eq, fold_g M c (M.FindNeighbors rp.nodes c) (storeNeighbors M rp c)
    (fun hc => by rw [stored_distance]; exact hz hc) n hn, stored_distance,
    (stored_fields M rp c c).2.2.2.2.1]

theorem AddNeighbors_frame (M : RouteModel) (rp : Planner) (c n : NodeId)
    (hn : n ∉ M.FindNeighbors rp.nodes c) :
    ((AddNeighbors M rp c).nodes n).visited = (rp.nodes n).visited ∧
    ((AddNeighbors M rp c).nodes n).parent = (rp.nodes n).parent ∧
    ((AddNeighbors M rp c).nodes n).g_value = (rp.nodes n).g_value ∧
    ((AddNeighbors M rp c).nodes n).h_value = (rp.nodes n).h_value := by
  rw [AddNeighbors_eq, fold_frame M c _ _ n hn]
  exact (stored_fields M rp c n).2.2

/-- C10. After `AddNeighbors(c)` every node `n` of the list that the neighbor
lookup returned for `c` is visited, has parent `c`, has `g_value` equal to the
`g_value` that `c` had at the call plus `distance(c, n)`, and has `h_value`
equal to `distance(n, goal)`. Nothing is assumed about the former state of `n`
or about repetitions in the list; when the list contains `c` itself, the
distance of the model between a point and itself is zero. -/
theorem AddNeighbors_sets_neighbor_state (M : RouteModel) (rp : Planner) (c n : NodeId)
    (hn : n ∈ M.FindNeighbors rp.nodes c)
    (hz : c ∈ M.FindNeighbors rp.nodes c → (rp.nodes c).distance M (rp.nodes c) = 0) :
    ((AddNeighbors M rp c).nodes n).visited = true ∧
    ((AddNeighbors M rp c).nodes n).parent = some c ∧
    ((AddNeighbors M rp c).nodes n).g_value =
      (rp.nodes c).g_value + (rp.nodes c).distance M (rp.nodes n) ∧
    ((AddNeighbors M rp c).nodes n).h_value =
      (rp.nodes n).distance M (rp.nodes rp.end_node) := by
  obtain ⟨h1, h2, h3⟩ := AddNeighbors_marks M rp c n hn
  exact ⟨h1, h2, AddNeighbors_g M rp c n hn hz, h3⟩

/-! ## `ConstructFinalPath` -/

theorem pathLength_concat (M : RouteModel) (l : List Node) (b a : Node) :
    pathLength M (l ++ [b, a]) = pathLength M (l ++ [b]) + a.distance M b := by
  induction l with
  | nil => simp [pathLength]
  | cons x l ih =>
    cases l with
    | nil => simp [pathLength]
    | cons y l =>
      have e1 : (x :: y :: l) ++ [b, a] = x :: y :: (l ++ [b, a]) := rfl
      have e2 : (x :: y :: l) ++ [b] = x :: y :: (l ++ [b]) := rfl
      have e3 : (y :: l) ++ [b, a] = y :: (l ++ [b, a]) := rfl
      have e4 : (y :: l) ++ [b] = y :: (l ++ [b]) := rfl
      rw [e3, e4] at ih
      rw [e1, e2]
      simp only [pathLength]
      rw [ih]; ring

theorem pathLength_reverse (M : RouteModel) (l : List Node) :
    pathLength M l.reverse = chainLength M l := by
  induction l with
  | nil => simp [pathLength, chainLength]
  | cons c l ih =>
    cases l with
    | nil => simp [pathLength, chainLength]
    | cons p rest =>
      have e : (c :: p :: rest).reverse = rest.reverse ++ [p, c] := by simp
      have e' : (p :: rest).reverse = rest.reverse ++ [p] := by simp
      rw [e, pathLength_concat, ← e', ih]
      simp only [chainLength]; ring

theorem walkParents_spec (M : RouteModel) (nodes : NodeId → Node) (start_node : NodeId)
    (fuel : Nat) (cur : NodeId) (d : ℚ) (acc : List Node) (last : NodeId) (d' : ℚ)
    (acc' : List Node)
    (h : walkParents M nodes start_node fuel cur d acc = Outcome.ret (last, d', acc')) :
    ∃ ids : List NodeId,
      ParentChain nodes (cur :: ids) ∧
      (cur :: ids).getLast? = some last ∧
      acc' ++ [nodes last] = acc ++ (cur :: ids).map nodes ∧
      d' = d + chainLength M ((cur :: ids).map nodes) ∧
      ((nodes start_node).x = (nodes last).x ∨ (nodes start_node).y = (nodes last).y) ∧
      (∀ i ∈ (cur :: ids).dropLast,
        (nodes start_node).x ≠ (nodes i).x ∧ (nodes start_node).y ≠ (nodes i).y) := by
  induction fuel generalizing cur d acc with
  | zero =>
    unfold walkParents at h
    split at h
    · simp at h
    · rename_i hc
      simp only [Outcome.ret.injEq, Prod.mk.injEq] at h
      obtain ⟨rfl, rfl, rfl⟩ := h
      refine ⟨[], trivial, rfl, by simp, by simp [chainLength], ?_, by simp⟩
      by_contra hcon
      exact hc ⟨fun e => hcon (Or.inl e), fun e => hcon (Or.inr e)⟩
  | succ fuel ih =>
    unfold walkParents at h
    split at h
    · rename_i hc
      simp only at h
      cases hp : (nodes cur).parent with
      | none => simp [hp] at h
      | some p =>
        simp only [hp] at h
        obtain ⟨ids, hchain, hlast, hacc, hd, hstop, hgo⟩ := ih p _ _ h
        refine ⟨p :: ids, ⟨hp, hchain⟩, ?_, ?_, ?_, hstop, ?_⟩
        · simpa using hlast
        · rw [hacc]; simp
        · rw [hd]; simp only [List.map_cons, chainLength]; ring
        · intro i hi
          simp only [List.dropLast_cons₂, List.mem_cons] at hi
          rcases hi with rfl | hi
          · exact hc
          · exact hgo i hi
    · rename_i hc
      simp only [Outcome.ret.injEq, Prod.mk.injEq] at h
      obtain ⟨rfl, rfl, rfl⟩ := h
      refine ⟨[], trivial, rfl, by simp, by simp [chainLength], ?_, by simp⟩
      by_contra hcon
      exact hc ⟨fun e => hcon (Or.inl e), fun e => hcon (Or.inr e)⟩

theorem ConstructFinalPath_spec (M : RouteModel) (fuel : Nat) (rp : Planner) (cur : NodeId)
    (rp' : Planner) (path : List Node)
    (h : ConstructFinalPath M fuel rp cur = Outcome.ret (rp', path)) :
    ∃ ids : List NodeId,
      ParentChain rp.nodes (cur :: ids) ∧
      path = ((cur :: ids).map rp.nodes).reverse ∧
      rp' = { rp with distance := chainLength M ((cur :: ids).map rp.nodes) * M.MetricScale } ∧
      (∃ last, (cur :: ids).getLast? = some last ∧
        ((rp.nodes rp.start_node).x = (rp.nodes last).x ∨
          (rp.nodes rp.start_node).y = (rp.nodes last).y)) ∧
      (∀ i ∈ (cur :: ids).dropLast,
        (rp.nodes rp.start_node).x ≠ (rp.nodes i).x ∧
          (rp.nodes rp.start_node).y ≠ (rp.nodes i).y) := by
  unfold ConstructFinalPath at h
  cases hw : walkParents M rp.nodes rp.start_node fuel cur 0 [] with
  | ret r =>
    obtain ⟨last, d, acc⟩ := r
    rw [hw] at h
    simp only [Outcome.ret.injEq, Prod.mk.injEq] at h
    obtain ⟨hrp, hpath⟩ := h
    obtain ⟨ids, hchain, hlast, hacc, hd, hstop, hgo⟩ := walkParents_spec M _ _ _ _ _ _ _ _ _ hw
    refine ⟨ids, hchain, ?_, ?_, ⟨last, hlast, hstop⟩, hgo⟩
    · rw [← hpath, hacc]; simp
    · rw [← hrp, hd]; simp
  | nullDeref => rw [hw] at h; simp at h
  | emptyFront => rw [hw] at h; simp at h
  | outOfFuel => rw [hw] at h; simp at h

/-- C6. Whenever `ConstructFinalPath(goal)` returns, the returned path is not
empty and its last element is the node stored at `goal` when the call was made:
a copy with the same coordinates and the same search state. -/
theorem ConstructFinalPath_ends_at_goal (M : RouteModel) (fuel : Nat) (rp : Planner)
    (goal : NodeId) (rp' : Planner) (path : List Node)
    (h : ConstructFinalPath M fuel rp goal = Outcome.ret (rp', path)) :
    path ≠ [] ∧ path.getLast? = some (rp.nodes goal) := by
  obtain ⟨ids, -, hpath, -⟩ := ConstructFinalPath_spec M fuel rp goal rp' path h
  subst hpath
  constructor
  · simp
  · simp

/-- C8. Whenever `ConstructFinalPath(goal)` returns, the `distance` member holds
the scale factor of the model times the sum, over the consecutive pairs `(p, c)`
of the returned path, of `distance(c, p)`; the value that `distance` held before
the call plays no part. -/
theorem ConstructFinalPath_distance (M : RouteModel) (fuel : Nat) (rp : Planner)
    (goal : NodeId) (rp' : Planner) (path : List Node)
    (h : ConstructFinalPath M fuel rp goal = Outcome.ret (rp', path)) :
    rp'.distance = M.MetricScale * pathLength M path := by
  obtain ⟨ids, -, hpath, hrp, -⟩ := ConstructFinalPath_spec M fuel rp goal rp' path h
  subst hpath hrp
  rw [pathLength_reverse]
  simp only
  ring

/-! ## `AStarSearch` -/

theorem searchLoop_at_goal (M : RouteModel) (sort : Sorter) (fuel : Nat) (rp : Planner) :
    searchLoop M sort fuel rp rp.end_node = Outcome.ret (rp, rp.end_node) := by
  unfold searchLoop
  simp

/-- C7. When the start node and the goal node are the same node, the loop of
`AStarSearch` is left before its first iteration (it returns the seeded planner
even with no fuel, so `AddNeighbors` and `NextNode` are not called), the stored
path is exactly the one node, the stored distance is 0, and no node other than
the start node, which is marked visited, is changed. -/
theorem AStarSearch_same_start_and_goal (M : RouteModel) (sort : Sorter) (fuel : Nat)
    (rp : Planner) (h : rp.start_node = rp.end_node) :
    searchLoop M sort 0 (seedSearch rp) rp.start_node =
        Outcome.ret (seedSearch rp, rp.start_node) ∧
    ∃ rp', AStarSearch M sort fuel rp = Outcome.ret rp' ∧
      rp'.path = [rp'.nodes rp.start_node] ∧
      rp'.distance = 0 ∧
      rp'.nodes = (seedSearch rp).nodes ∧
      rp'.open_list = rp.open_list ++ [rp.start_node] := by
  have hend : (seedSearch rp).end_node = rp.start_node := h.symm
  have hloop : ∀ f, searchLoop M sort f (seedSearch rp) rp.start_node =
      Outcome.ret (seedSearch rp, rp.start_node) := by
    intro f
    have := searchLoop_at_goal M sort f (seedSearch rp)
    rwa [hend] at this
  refine ⟨hloop 0, ?_⟩
  have hwalk : walkParents M (seedSearch rp).nodes (seedSearch rp).start_node fuel
      (seedSearch rp).end_node 0 [] = Outcome.ret (rp.start_node, 0, []) := by
    have e : (seedSearch rp).start_node = (seedSearch rp).end_node := h
    rw [← hend]
    unfold walkParents
    simp [e]
  refine ⟨{ seedSearch rp with
      distance := 0 * M.MetricScale, path := [(seedSearch rp).nodes rp.start_node] },
    ?_, rfl, by simp, rfl, rfl⟩
  unfold AStarSearch
  rw [hloop fuel]
  simp only [ConstructFinalPath, hwalk]
  rfl

/-- C7, at an instance: the planner on the two-node column network with the goal
moved onto the start node. -/
theorem AStarSearch_same_start_and_goal_witness :
    ({ columnPlanner with end_node := 0 } : Planner).start_node =
        ({ columnPlanner with end_node := 0 } : Planner).end_node ∧
    (searchLoop columnModel insertionSort 0
        (seedSearch { columnPlanner with end_node := 0 }) 0 =
        Outcome.ret (seedSearch { columnPlanner with end_node := 0 }, 0) ∧
    ∃ rp', AStarSearch columnModel insertionSort 3 { columnPlanner with end_node := 0 } =
        Outcome.ret rp' ∧
      rp'.path = [rp'.nodes 0] ∧
      rp'.distance = 0 ∧
      rp'.nodes = (seedSearch { columnPlanner with end_node := 0 }).nodes ∧
      rp'.open_list = [] ++ [0]) :=
  ⟨rfl, AStarSearch_same_start_and_goal columnModel insertionSort 3
    { columnPlanner with end_node := 0 } rfl⟩

/-- C2. On the column network the path that `AStarSearch` stores consists of the
goal node `(0, 1)` alone: the walk along the parent links stops at once, because
the goal has the x coordinate of the start node `(0, 0)`, although its y
coordinate differs. The first element of the path is not at the start. -/
theorem ConstructFinalPath_stops_on_one_equal_coordinate :
    (AStarSearch columnModel insertionSort 5 columnPlanner).toOption.map
        (fun rp => (coordsOf rp.path, rp.distance)) = some ([(0, 1)], 0) ∧
    ((columnPlanner.nodes columnPlanner.start_node).x,
      (columnPlanner.nodes columnPlanner.start_node).y) = (0, 0) := by
  decide!

/-- C3. On the island network the goal cannot be reached and the loop of
`AStarSearch` ends with the frontier empty and `current_node` still the start;
`ConstructFinalPath(end_node)` then enters its loop and dereferences the null
parent of the goal, so nothing is stored. -/
theorem AStarSearch_no_route_dereferences_null :
    (searchLoop islandModel insertionSort 5 (seedSearch islandPlanner) 0).toOption.map
        (fun r => (r.1.open_list, r.2)) = some ([], 0) ∧
    (AStarSearch islandModel insertionSort 5 islandPlanner).isNullDeref = true := by
  decide!

theorem chain_run :
    ConstructFinalPath chainModel 5 chainPlanner 2 =
      Outcome.ret
        ({ chainPlanner with
            distance := (0 + (chainNodes 2).distance chainModel (chainNodes 1) +
              (chainNodes 1).distance chainModel (chainNodes 0)) * 2 },
          [chainNodes 0, chainNodes 1, chainNodes 2]) := by
  rfl

/-- C6, at an instance: the chain `2 → 1 → 0`. -/
theorem ConstructFinalPath_ends_at_goal_witness :
    ConstructFinalPath chainModel 5 chainPlanner 2 =
      Outcome.ret
        ({ chainPlanner with
            distance := (0 + (chainNodes 2).distance chainModel (chainNodes 1) +
              (chainNodes 1).distance chainModel (chainNodes 0)) * 2 },
          [chainNodes 0, chainNodes 1, chainNodes 2]) ∧
    [chainNodes 0, chainNodes 1, chainNodes 2] ≠ [] ∧
    [chainNodes 0, chainNodes 1, chainNodes 2].getLast? = some (chainPlanner.nodes 2) :=
  ⟨chain_run, ConstructFinalPath_ends_at_goal chainModel 5 chainPlanner 2 _ _ chain_run⟩

/-! ## The loop of `AStarSearch` -/

theorem Outcome.ret_of_map {α β : Type} (o : Outcome α) (f : α → β) (b : β)
    (h : o.toOption.map f = some b) : ∃ a, o = Outcome.ret a ∧ f a = b := by
  cases o with
  | ret a => exact ⟨a, rfl, by simpa [Outcome.toOption] using h⟩
  | nullDeref => simp [Outcome.toOption] at h
  | emptyFront => simp [Outcome.toOption] at h
  | outOfFuel => simp [Outcome.toOption] at h

/-- One iteration of the loop: the planner after `AddNeighbors` and `NextNode`. -/
theorem iteration_spec (M : RouteModel) (sort : Sorter) (hs : StdSort sort) (rp : Planner)
    (cur : NodeId) (hne : rp.open_list ≠ []) :
    ∃ next rest, NextNode sort (AddNeighbors M rp cur) =
        some (next, { AddNeighbors M rp cur with open_list := rest }) ∧
      (next :: rest).Perm (rp.open_list ++ M.FindNeighbors rp.nodes cur) := by
  have hne' : (AddNeighbors M rp cur).open_list ≠ [] := by
    rw [AddNeighbors_open_list]
    simp [hne]
  obtain ⟨n, rest, hnext, -, hperm⟩ := NextNode_spec sort hs _ hne'
  refine ⟨n, rest, hnext, ?_⟩
  rwa [AddNeighbors_open_list] at hperm

theorem searchLoop_invariant (M : RouteModel) (sort : Sorter) (hs : StdSort sort)
    (P : Planner → NodeId → Prop)
    (hstep : ∀ rp cur next rest, P rp cur → rp.open_list ≠ [] → cur ≠ rp.end_node →
      (next :: rest).Perm (rp.open_list ++ M.FindNeighbors rp.nodes cur) →
      P { AddNeighbors M rp cur with open_list := rest } next)
    (fuel : Nat) (rp : Planner) (cur : NodeId) (rp' : Planner) (cur' : NodeId)
    (h0 : P rp cur) (h : searchLoop M sort fuel rp cur = Outcome.ret (rp', cur')) :
    P rp' cur' ∧ (rp'.open_list = [] ∨ cur' = rp'.end_node) := by
  induction fuel generalizing rp cur with
  | zero =>
    unfold searchLoop at h
    split at h
    · simp at h
    · rename_i hc
      simp only [Outcome.ret.injEq, Prod.mk.injEq] at h
      obtain ⟨rfl, rfl⟩ := h
      refine ⟨h0, ?_⟩
      by_contra hcon
      push_neg at hcon
      exact hc ⟨List.length_pos.mpr hcon.1, hcon.2⟩
  | succ fuel ih =>
    unfold searchLoop at h
    split at h
    · rename_i hc
      have hne : rp.open_list ≠ [] := List.length_pos.mp hc.1
      obtain ⟨next, rest, hnext, hperm⟩ := iteration_spec M sort hs rp cur hne
      simp only [hnext] at h
      exact ih _ _ (hstep rp cur next rest h0 hne hc.2 hperm) h
    · rename_i hc
      simp only [Outcome.ret.injEq, Prod.mk.injEq] at h
      obtain ⟨rfl, rfl⟩ := h
      refine ⟨h0, ?_⟩
      by_contra hcon
      push_neg at hcon
      exact hc ⟨List.length_pos.mpr hcon.1, hcon.2⟩

/-- On the ping network the loop never stops, whatever `std::sort` does. -/
theorem ping_runs_out (sort : Sorter) (hs : StdSort sort) (fuel : Nat) (rp : Planner)
    (cur : NodeId) (hlen : rp.open_list.length = 1) (hend : rp.end_node = 2)
    (hcur : cur < 2) (hopen : ∀ v ∈ rp.open_list, v < 2) :
    searchLoop pingModel sort fuel rp cur = Outcome.outOfFuel := by
  induction fuel generalizing rp cur with
  | zero =>
    unfold searchLoop
    rw [if_pos ⟨by rw [hlen]; exact Nat.one_pos, by rw [hend]; exact Nat.ne_of_lt hcur⟩]
  | succ fuel ih =>
    have hne : rp.open_list ≠ [] := by
      intro e; rw [e] at hlen; simp at hlen
    obtain ⟨next, rest, hnext, hperm⟩ := iteration_spec pingModel sort hs rp cur hne
    unfold searchLoop
    rw [if_pos ⟨by rw [hlen]; exact Nat.one_pos, by rw [hend]; exact Nat.ne_of_lt hcur⟩]
    simp only [hnext]
    have hfound : pingModel.FindNeighbors rp.nodes cur = pingAdj cur := rfl
    have hadj : (pingAdj cur).length = 1 ∧ ∀ v ∈ pingAdj cur, v < 2 := by
      interval_cases cur <;> simp [pingAdj]
    have hall : ∀ v ∈ next :: rest, v < 2 := by
      intro v hv
      rcases List.mem_append.mp (hperm.subset hv) with h | h
      · exact hopen v h
      · rw [hfound] at h; exact hadj.2 v h
    have hlen' : (next :: rest).length = 2 := by
      rw [hperm.length_eq, List.length_append, hlen, hfound, hadj.1]
    apply ih
    · simpa using hlen'
    · rw [← hend]; exact (AddNeighbors_ends _ _ _).2.1
    · exact hall next (List.mem_cons_self _ _)
    · intro v hv; exact hall v (List.mem_cons_of_mem _ hv)

/-- C5 as stated fails: on the ping network, whose lookup returns the same list
for a node on every call, the loop of `AStarSearch` run from the fresh state
does not stop for any number of iterations. -/
theorem searchLoop_need_not_stop :
    Fresh pingPlanner ∧ FixedAdjacency pingModel pingAdj ∧
    ¬ ∃ fuel rp' cur',
      searchLoop pingModel insertionSort fuel (seedSearch pingPlanner)
        pingPlanner.start_node = Outcome.ret (rp', cur') := by
  refine ⟨⟨rfl, fun n => ?_⟩, fun _ _ => rfl, ?_⟩
  · rcases n with _ | _ | n <;> exact ⟨rfl, rfl, rfl⟩
  · rintro ⟨fuel, rp', cur', h⟩
    have hrun := ping_runs_out insertionSort insertionSort_stdSort fuel (seedSearch pingPlanner)
      0 rfl rfl (by decide)
      (by intro v hv; simp [seedSearch, Planner.store, pingPlanner] at hv; rw [hv]; decide)
    change searchLoop pingModel insertionSort fuel (seedSearch pingPlanner) 0 = _ at h
    rw [hrun] at h
    simp at h

/-! ## Termination with a lookup that returns unvisited nodes -/

theorem count_split (p : NodeId → Bool) (L R : List NodeId) (hR : R.Nodup) (hL : L.Nodup)
    (hsub : ∀ n ∈ L, n ∈ R ∧ p n = true) :
    (R.filter p).length =
      (R.filter (fun n => p n && !decide (n ∈ L))).length + L.length := by
  have h1 := List.length_eq_countP_add_countP (fun n => decide (n ∈ L)) (R.filter p)
  rw [List.countP_eq_length_filter, List.countP_eq_length_filter, List.filter_filter,
    List.filter_filter] at h1
  have h2 : (R.filter (fun a => decide (a ∈ L) && p a)).Perm L := by
    rw [List.perm_ext_iff_of_nodup (hR.filter _) hL]
    intro a
    simp only [List.mem_filter, Bool.and_eq_true, decide_eq_true_eq]
    constructor
    · intro h; exact h.2.1
    · intro h; exact ⟨(hsub a h).1, h, (hsub a h).2⟩
  have h3 : R.filter (fun a => decide (¬ decide (a ∈ L) = true) && p a) =
      R.filter (fun n => p n && !decide (n ∈ L)) := by
    apply List.filter_congr
    intro a _
    by_cases ha : a ∈ L <;> simp [ha]
  rw [h1, h2.length_eq, h3]
  omega

theorem unvisitedCount_AddNeighbors (M : RouteModel) (rp : Planner) (c : NodeId) (N : Nat)
    (hnodup : (M.FindNeighbors rp.nodes c).Nodup)
    (hnew : ∀ n ∈ M.FindNeighbors rp.nodes c, n < N ∧ (rp.nodes n).visited = false) :
    unvisitedCount (AddNeighbors M rp c).nodes N + (M.FindNeighbors rp.nodes c).length =
      unvisitedCount rp.nodes N := by
  unfold unvisitedCount
  have hcongr : (List.range N).filter (fun n => !((AddNeighbors M rp c).nodes n).visited) =
      (List.range N).filter
        (fun n => !(rp.nodes n).visited && !decide (n ∈ M.FindNeighbors rp.nodes c)) := by
    apply List.filter_congr
    intro n _
    by_cases hn : n ∈ M.FindNeighbors rp.nodes c
    · simp [hn, (AddNeighbors_marks M rp c n hn).1]
    · simp [hn, (AddNeighbors_frame M rp c n hn).1]
  rw [hcongr]
  symm
  apply count_split _ _ _ (List.nodup_range N) hnodup
  intro n hn
  exact ⟨List.mem_range.mpr (hnew n hn).1, by simp [(hnew n hn).2]⟩

theorem searchLoop_stops_within (M : RouteModel) (sort : Sorter) (hs : StdSort sort) (N : Nat)
    (hlookup : ∀ nodes c, (M.FindNeighbors nodes c).Nodup ∧
      ∀ n ∈ M.FindNeighbors nodes c, n < N ∧ (nodes n).visited = false)
    (fuel : Nat) (rp : Planner) (cur : NodeId)
    (hfuel : unvisitedCount rp.nodes N + rp.open_list.length ≤ fuel) :
    ∃ rp' cur', searchLoop M sort fuel rp cur = Outcome.ret (rp', cur') ∧
      rp'.end_node = rp.end_node ∧ (cur' = rp'.end_node ∨ rp'.open_list = []) := by
  induction fuel generalizing rp cur with
  | zero =>
    have hO : rp.open_list = [] := List.length_eq_zero.mp (by omega)
    refine ⟨rp, cur, ?_, rfl, Or.inr hO⟩
    unfold searchLoop
    simp [hO]
  | succ fuel ih =>
    by_cases hc : rp.open_list.length > 0 ∧ cur ≠ rp.end_node
    · have hne : rp.open_list ≠ [] := List.length_pos.mp hc.1
      obtain ⟨next, rest, hnext, hperm⟩ := iteration_spec M sort hs rp cur hne
      have hcount := unvisitedCount_AddNeighbors M rp cur N (hlookup _ _).1 (hlookup _ _).2
      have hlen := hperm.length_eq
      simp only [List.length_cons, List.length_append] at hlen
      obtain ⟨rp', cur', hrun, hend, hstop⟩ :=
        ih { AddNeighbors M rp cur with open_list := rest } next (by simp only; omega)
      refine ⟨rp', cur', ?_, ?_, hstop⟩
      · unfold searchLoop
        rw [if_pos hc]
        simp only [hnext]
        exact hrun
      · rw [hend]; exact (AddNeighbors_ends M rp cur).2.1
    · refine ⟨rp, cur, ?_, rfl, ?_⟩
      · unfold searchLoop
        rw [if_neg hc]
      · by_contra hcon
        push_neg at hcon
        exact hc ⟨List.length_pos.mpr hcon.2, hcon.1⟩

theorem unvisitedCount_seed (rp : Planner) (N : Nat) (h : rp.start_node < N) :
    unvisitedCount (seedSearch rp).nodes N + 1 ≤ N := by
  unfold unvisitedCount
  have hlt : ((List.range N).filter (fun n => !((seedSearch rp).nodes n).visited)).length <
      (List.range N).length := by
    rw [List.length_filter_lt_length_iff_exists]
    exact ⟨rp.start_node, List.mem_range.mpr h, by simp [seedSearch, Planner.store, setNode]⟩
  rw [List.length_range] at hlt
  omega

/-- C5, amended. When every call of the neighbor lookup returns nodes of the
network (indices below `N`) that are not yet visited, none of them twice, the
loop of `AStarSearch` run from a fresh state stops within `N` iterations, with
`current_node` equal to the goal or with the frontier empty. -/
theorem searchLoop_stops_on_unvisited_lookup (M : RouteModel) (sort : Sorter)
    (hs : StdSort sort) (N : Nat) (rp : Planner) (hfresh : Fresh rp)
    (hstart : rp.start_node < N)
    (hlookup : ∀ nodes c, (M.FindNeighbors nodes c).Nodup ∧
      ∀ n ∈ M.FindNeighbors nodes c, n < N ∧ (nodes n).visited = false) :
    ∃ rp' cur', searchLoop M sort N (seedSearch rp) rp.start_node = Outcome.ret (rp', cur') ∧
      (cur' = rp.end_node ∨ rp'.open_list = []) := by
  have hfuel : unvisitedCount (seedSearch rp).nodes N + (seedSearch rp).open_list.length ≤ N := by
    have hO : (seedSearch rp).open_list = [rp.start_node] := by
      show rp.open_list ++ [rp.start_node] = [rp.start_node]
      rw [hfresh.1]; rfl
    rw [hO]
    exact unvisitedCount_seed rp N hstart
  obtain ⟨rp', cur', hrun, hend, hstop⟩ :=
    searchLoop_stops_within M sort hs N hlookup N (seedSearch rp) rp.start_node hfuel
  refine ⟨rp', cur', hrun, ?_⟩
  rw [hend] at hstop
  exact hstop

theorem fresh_ping : Fresh pingPlanner :=
  ⟨rfl, fun n => by rcases n with _ | _ | n <;> exact ⟨rfl, rfl, rfl⟩⟩

theorem ping_unvisited_lookup (nodes : NodeId → Node) (c : NodeId) :
    (pingUnvisitedModel.FindNeighbors nodes c).Nodup ∧
      ∀ n ∈ pingUnvisitedModel.FindNeighbors nodes c, n < 3 ∧ (nodes n).visited = false := by
  have hnodup : (pingAdj c).Nodup := by
    rcases c with _ | _ | c <;> simp [pingAdj]
  have hlt : ∀ n ∈ pingAdj c, n < 3 := by
    rcases c with _ | _ | c <;> simp [pingAdj]
  refine ⟨hnodup.filter _, ?_⟩
  intro n hn
  simp only [pingUnvisitedModel, List.mem_filter, Bool.not_eq_true'] at hn
  exact ⟨hlt n hn.1, hn.2⟩

/-- C5, amended, at an instance: the ping network with a lookup that leaves out
the visited nodes. -/
theorem searchLoop_stops_on_unvisited_lookup_witness :
    ∃ rp' cur', searchLoop pingUnvisitedModel insertionSort 3 (seedSearch pingPlanner)
        pingPlanner.start_node = Outcome.ret (rp', cur') ∧
      (cur' = pingPlanner.end_node ∨ rp'.open_list = []) :=
  searchLoop_stops_on_unvisited_lookup pingUnvisitedModel insertionSort insertionSort_stdSort 3
    pingPlanner fresh_ping (by decide) ping_unvisited_lookup

/-! ## Instances -/

/-- C8, at an instance: the chain `2 → 1 → 0` with scale 2 and a stale distance
of 77; the new distance is `2 * (5 + 5)`. -/
theorem ConstructFinalPath_distance_witness :
    ({ chainPlanner with
        distance := (0 + (chainNodes 2).distance chainModel (chainNodes 1) +
          (chainNodes 1).distance chainModel (chainNodes 0)) * 2 } : Planner).distance =
      chainModel.MetricScale * pathLength chainModel [chainNodes 0, chainNodes 1, chainNodes 2] ∧
    chainModel.MetricScale * pathLength chainModel [chainNodes 0, chainNodes 1, chainNodes 2] =
      20 :=
  ⟨ConstructFinalPath_distance chainModel 5 chainPlanner 2 _ _ chain_run, by decide!⟩

/-- C9, at an instance: the detour network after the start node was expanded,
with frontier `[1, 2, 1]`; the sums are 15 for node `1` and 13 for node `2`, and
node `2` is returned. -/
theorem NextNode_extracts_minimum_witness :
    (NextNode insertionSort
        { AddNeighbors detourModel (seedSearch detourPlanner) 0 with
          open_list := [1, 2, 1] }).map Prod.fst = some 2 ∧
    ∃ n rp', NextNode insertionSort
        { AddNeighbors detourModel (seedSearch detourPlanner) 0 with open_list := [1, 2, 1] } =
        some (n, rp') ∧
      n ∈ [1, 2, 1] ∧
      (∀ m ∈ [1, 2, 1],
        ((AddNeighbors detourModel (seedSearch detourPlanner) 0).nodes n).g_value +
            ((AddNeighbors detourModel (seedSearch detourPlanner) 0).nodes n).h_value ≤
          ((AddNeighbors detourModel (seedSearch detourPlanner) 0).nodes m).g_value +
            ((AddNeighbors detourModel (seedSearch detourPlanner) 0).nodes m).h_value) ∧
      rp'.open_list.Perm ([1, 2, 1].erase n) ∧
      rp'.open_list.length + 1 = [1, 2, 1].length ∧
      rp'.nodes = (AddNeighbors detourModel (seedSearch detourPlanner) 0).nodes :=
  ⟨by decide!, NextNode_extracts_minimum insertionSort insertionSort_stdSort
    { AddNeighbors detourModel (seedSearch detourPlanner) 0 with open_list := [1, 2, 1] }
    (List.cons_ne_nil _ _)⟩

/-- C10, at an instance: the lookup returns `[1, 0, 1]` for the current node
`0`, a list that repeats node `1` and contains the current node. -/
theorem AddNeighbors_sets_neighbor_state_witness :
    (1 : NodeId) ∈ repeatModel.FindNeighbors detourPlanner.nodes 0 ∧
    ((AddNeighbors repeatModel detourPlanner 0).nodes 1).visited = true ∧
    ((AddNeighbors repeatModel detourPlanner 0).nodes 1).parent = some 0 ∧
    ((AddNeighbors repeatModel detourPlanner 0).nodes 1).g_value =
      (detourPlanner.nodes 0).g_value +
        (detourPlanner.nodes 0).distance repeatModel (detourPlanner.nodes 1) ∧
    ((AddNeighbors repeatModel detourPlanner 0).nodes 1).h_value =
      (detourPlanner.nodes 1).distance repeatModel (detourPlanner.nodes detourPlanner.end_node) :=
  ⟨by decide, AddNeighbors_sets_neighbor_state repeatModel detourPlanner 0 1 (by decide)
    (fun _ => by decide!)⟩

/-! ## Exhaustion of the frontier -/

theorem covered_step (adj : NodeId → List NodeId) (start goal : NodeId) (E : NodeId → Prop)
    (O : List NodeId) (cur next : NodeId) (rest : List NodeId) (rp rp1 : Planner)
    (hO : rp.open_list = O) (hrest : rp1.open_list = rest)
    (hcov : Covered adj start goal E rp cur) (hcur : cur ≠ goal)
    (hperm : (next :: rest).Perm (O ++ adj cur)) :
    Covered adj start goal (fun x => E x ∨ x = cur) rp1 next := by
  obtain ⟨h0, h1, h2, h3⟩ := hcov
  rw [hO] at h0 h1 h2
  have hmem : ∀ v, v ∈ next :: rest ↔ v ∈ O ∨ v ∈ adj cur := by
    intro v; rw [hperm.mem_iff, List.mem_append]
  have hmemE : ∀ v u, u ∈ (next :: rest).erase v ↔ u ∈ (O ++ adj cur).erase v := by
    intro v u; exact (hperm.erase v).mem_iff
  unfold Covered
  rw [hrest]
  refine ⟨?_, ?_, ?_, ?_⟩
  · rcases h0 with h | h
    · exact Or.inl (Or.inl h)
    · rcases List.mem_cons.mp h with h | h
      · exact Or.inl (Or.inr h)
      · exact Or.inr ((hmem _).mpr (Or.inl h))
  · intro p hp v hv
    rcases hp with hp | hp
    · rcases h1 p hp v hv with h | h
      · rcases List.mem_cons.mp h with h | h
        · exact Or.inr (Or.inr h)
        · exact Or.inl ((hmem _).mpr (Or.inl h))
      · exact Or.inr (Or.inl h)
    · subst hp
      exact Or.inl ((hmem _).mpr (Or.inr hv))
  · intro v hv
    by_cases hvc : v = cur
    · exact Or.inl (Or.inr hvc)
    have hcv : cur ≠ v := fun e => hvc e.symm
    by_cases hvO : v ∈ O
    · rcases h2 v (List.mem_cons_of_mem _ hvO) with h | ⟨u, hu, hreach⟩
      · exact Or.inl (Or.inl h)
      · right
        have herase : (O ++ adj cur).erase v = O.erase v ++ adj cur :=
          List.erase_append_left _ hvO
        rw [List.erase_cons_tail (by simpa using hcv)] at hu
        rcases List.mem_cons.mp hu with hu | hu
        · subst hu
          rcases Relation.ReflTransGen.cases_head hreach with h | ⟨w, hw, hwv⟩
          · exact absurd h hcv
          · refine ⟨w, ?_, hwv⟩
            rw [hmemE, herase]
            exact List.mem_append_right _ hw
        · refine ⟨u, ?_, hreach⟩
          rw [hmemE, herase]
          exact List.mem_append_left _ hu
    · have hvadj : v ∈ adj cur := by
        rcases (hmem v).mp hv with h | h
        · exact absurd h hvO
        · exact h
      have herase : (O ++ adj cur).erase v = O ++ (adj cur).erase v :=
        List.erase_append_right _ hvO
      rcases h2 cur (List.mem_cons_self _ _) with h | ⟨u, hu, hreach⟩
      · rcases h1 cur h v hvadj with h' | h'
        · rcases List.mem_cons.mp h' with h' | h'
          · exact absurd h' hvc
          · exact absurd h' hvO
        · exact Or.inl (Or.inl h')
      · right
        rw [List.erase_cons_head] at hu
        refine ⟨u, ?_, hreach.tail hvadj⟩
        rw [hmemE, herase]
        exact List.mem_append_left _ hu
  · rintro (h | h)
    · exact h3 h
    · exact hcur h.symm

theorem edgePath_closed (adj : NodeId → List NodeId) (E : NodeId → Prop)
    (hclosed : ∀ p, E p → ∀ v ∈ adj p, E v) (l : List NodeId) (s t : NodeId) (hs : E s)
    (hroute : Route adj s t l) : E t := by
  obtain ⟨hhead, hlast, hpath⟩ := hroute
  induction l generalizing s with
  | nil => simp at hhead
  | cons a l ih =>
    simp only [List.head?_cons, Option.some.injEq] at hhead
    subst hhead
    cases l with
    | nil =>
      simp only [List.getLast?_singleton, Option.some.injEq] at hlast
      subst hlast
      exact hs
    | cons b l =>
      obtain ⟨hab, hrest⟩ := hpath
      exact ih b (hclosed a hs b hab) rfl (by simpa using hlast) hrest

theorem covered_seed (adj : NodeId → List NodeId) (rp : Planner) (hfresh : Fresh rp) :
    Covered adj rp.start_node rp.end_node (fun _ => False) (seedSearch rp) rp.start_node := by
  have hO : (seedSearch rp).open_list = [rp.start_node] := by
    simp [seedSearch, Planner.store, hfresh.1]
  unfold Covered
  rw [hO]
  refine ⟨Or.inr (List.mem_cons_self _ _), fun p hp => hp.elim, ?_, fun h => h⟩
  intro v hv
  have hv' : v = rp.start_node := by simpa using hv
  subst hv'
  exact Or.inr ⟨_, by simp, Relation.ReflTransGen.refl⟩

/-- C4. For every network whose neighbor lookup returns the same fixed list for
a node on every call, and every `std::sort` that meets its contract: if the loop
of `AStarSearch`, run from a fresh state, ends with the frontier empty and
`current_node` different from the goal, there is no edge path from the start
node to the goal node. -/
theorem exhausted_frontier_means_no_route (M : RouteModel) (sort : Sorter) (hs : StdSort sort)
    (adj : NodeId → List NodeId) (hadj : FixedAdjacency M adj) (fuel : Nat) (rp : Planner)
    (hfresh : Fresh rp) (rp' : Planner) (cur' : NodeId)
    (hrun : searchLoop M sort fuel (seedSearch rp) rp.start_node = Outcome.ret (rp', cur'))
    (hempty : rp'.open_list = []) (_hcur : cur' ≠ rp.end_node) :
    ¬ ∃ l, Route adj rp.start_node rp.end_node l := by
  obtain ⟨⟨-, E, h0, h1, h2, h3⟩, -⟩ := searchLoop_invariant M sort hs
    (fun p c => p.end_node = rp.end_node ∧ ∃ E, Covered adj rp.start_node rp.end_node E p c)
    (by
      rintro p c next rest ⟨hpe, E, hcov⟩ - hc hperm
      refine ⟨?_, fun x => E x ∨ x = c, ?_⟩
      · exact (AddNeighbors_ends M p c).2.1.trans hpe
      · rw [hadj] at hperm
        exact covered_step adj _ _ E p.open_list c next rest p _ rfl rfl hcov
          (by rw [← hpe]; exact hc) hperm)
    fuel (seedSearch rp) rp.start_node rp' cur'
    ⟨rfl, _, covered_seed adj rp hfresh⟩ hrun
  rw [hempty] at h0 h1 h2
  have hEcur : E cur' := by
    rcases h2 cur' (List.mem_cons_self _ _) with h | ⟨u, hu, -⟩
    · exact h
    · simp at hu
  have hmem : ∀ v, v ∈ [cur'] → E v := by
    intro v hv
    have : v = cur' := by simpa using hv
    rw [this]; exact hEcur
  have hclosed : ∀ p, E p → ∀ v ∈ adj p, E v := by
    intro p hp v hv
    rcases h1 p hp v hv with h | h
    · exact hmem v h
    · exact h
  have hstart : E rp.start_node := by
    rcases h0 with h | h
    · exact h
    · exact hmem _ h
  rintro ⟨l, hroute⟩
  exact h3 (edgePath_closed adj E hclosed l _ _ hstart hroute)

theorem deadEnd_run :
    (searchLoop deadEndModel insertionSort 5 (seedSearch pingPlanner) 0).toOption.map
      (fun r => (r.1.open_list, r.2)) = some ([], 1) := by
  decide!

/-- C4, at an instance: on the dead-end network the loop ends with the frontier
empty and `current_node = 1`, and the goal `2` cannot be reached from `0`. -/
theorem exhausted_frontier_means_no_route_witness :
    (searchLoop deadEndModel insertionSort 5 (seedSearch pingPlanner) 0).toOption.map
      (fun r => (r.1.open_list, r.2)) = some ([], 1) ∧
    ¬ ∃ l, Route deadEndAdj pingPlanner.start_node pingPlanner.end_node l := by
  refine ⟨deadEnd_run, ?_⟩
  obtain ⟨⟨rp', cur'⟩, hrun, hval⟩ := Outcome.ret_of_map _ _ _ deadEnd_run
  simp only [Prod.mk.injEq] at hval
  exact exhausted_frontier_means_no_route deadEndModel insertionSort insertionSort_stdSort
    deadEndAdj (fun _ _ => rfl) 5 pingPlanner fresh_ping rp' cur' hrun hval.1
    (by rw [hval.2]; decide)

/-! ## The stored distance and the shortest route -/

theorem edgePath_concat (adj : NodeId → List NodeId) (l : List NodeId) (c : NodeId)
    (hl : EdgePath adj l) (hc : ∀ p, l.getLast? = some p → c ∈ adj p) :
    EdgePath adj (l ++ [c]) := by
  induction l with
  | nil => simp [EdgePath]
  | cons a l ih =>
    cases l with
    | nil => exact ⟨hc a rfl, trivial⟩
    | cons b l =>
      obtain ⟨hab, hrest⟩ := hl
      exact ⟨hab, ih hrest (fun p hp => hc p (by simpa using hp))⟩

theorem edgePath_of_parentChain (adj : NodeId → List NodeId) (nodes : NodeId → Node)
    (hpe : ParentsAreEdges adj nodes) (l : List NodeId) (hl : ParentChain nodes l) :
    EdgePath adj l.reverse := by
  induction l with
  | nil => simp [EdgePath]
  | cons c l ih =>
    cases l with
    | nil => simp [EdgePath]
    | cons p rest =>
      obtain ⟨hcp, hrest⟩ := hl
      rw [List.reverse_cons]
      apply edgePath_concat adj _ c (ih hrest)
      intro q hq
      have : q = p := by simpa using hq.symm
      rw [this]
      exact hpe c p hcp

theorem routeCost_eq_pathLength (M : RouteModel) (hsym : ∀ p q, M.dist p q = M.dist q p)
    (nodes : NodeId → Node) (l : List NodeId) :
    routeCost M nodes l = pathLength M (l.map nodes) := by
  induction l with
  | nil => simp [routeCost, pathLength]
  | cons a l ih =>
    cases l with
    | nil => simp [routeCost, pathLength]
    | cons b l =>
      simp only [routeCost, List.map_cons, pathLength] at ih ⊢
      rw [ih]
      simp only [Node.distance, add_left_inj]
      exact hsym _ _

theorem parentsAreEdges_step (M : RouteModel) (adj : NodeId → List NodeId)
    (hadj : FixedAdjacency M adj) (rp : Planner) (c : NodeId)
    (h : ParentsAreEdges adj rp.nodes) : ParentsAreEdges adj (AddNeighbors M rp c).nodes := by
  intro n p hp
  by_cases hn : n ∈ M.FindNeighbors rp.nodes c
  · rw [(AddNeighbors_marks M rp c n hn).2.1] at hp
    simp only [Option.some.injEq] at hp
    rw [← hp, ← hadj rp.nodes c]
    exact hn
  · rw [(AddNeighbors_frame M rp c n hn).2.1] at hp
    exact h n p hp

theorem parentsAreEdges_loop (M : RouteModel) (sort : Sorter) (hs : StdSort sort)
    (adj : NodeId → List NodeId) (hadj : FixedAdjacency M adj) (fuel : Nat) (rp : Planner)
    (hfresh : Fresh rp) (rp1 : Planner) (cur : NodeId)
    (hrun : searchLoop M sort fuel (seedSearch rp) rp.start_node = Outcome.ret (rp1, cur)) :
    ParentsAreEdges adj rp1.nodes ∧ rp1.end_node = rp.end_node ∧
      rp1.start_node = rp.start_node := by
  refine (searchLoop_invariant M sort hs
    (fun p _ => ParentsAreEdges adj p.nodes ∧ p.end_node = rp.end_node ∧
      p.start_node = rp.start_node)
    (by
      rintro p c next rest ⟨hpe, he, hst⟩ - - -
      exact ⟨parentsAreEdges_step M adj hadj p c hpe, (AddNeighbors_ends M p c).2.1.trans he,
        (AddNeighbors_ends M p c).1.trans hst⟩)
    fuel (seedSearch rp) rp.start_node rp1 cur ⟨?_, rfl, rfl⟩ hrun).1
  intro n p hp
  have hnone : ((seedSearch rp).nodes n).parent = none := by
    by_cases h : n = rp.start_node
    · subst h; simp [seedSearch, Planner.store, setNode, (hfresh.2 _).2.2]
    · simp [seedSearch, Planner.store, setNode, h, (hfresh.2 n).2.2]
  rw [hnone] at hp
  simp at hp

theorem AStarSearch_ret (M : RouteModel) (sort : Sorter) (fuel : Nat) (rp rp' : Planner)
    (h : AStarSearch M sort fuel rp = Outcome.ret rp') :
    ∃ rp1 cur rp2 path,
      searchLoop M sort fuel (seedSearch rp) rp.start_node = Outcome.ret (rp1, cur) ∧
      ConstructFinalPath M fuel rp1 rp1.end_node = Outcome.ret (rp2, path) ∧
      rp' = { rp2 with path := path } := by
  unfold AStarSearch at h
  cases hl : searchLoop M sort fuel (seedSearch rp) rp.start_node with
  | ret r =>
    obtain ⟨rp1, cur⟩ := r
    rw [hl] at h
    simp only at h
    cases hc : ConstructFinalPath M fuel rp1 rp1.end_node with
    | ret r2 =>
      obtain ⟨rp2, path⟩ := r2
      rw [hc] at h
      simp only [Outcome.ret.injEq] at h
      exact ⟨rp1, cur, rp2, path, rfl, hc, h.symm⟩
    | nullDeref => rw [hc] at h; simp at h
    | emptyFront => rw [hc] at h; simp at h
    | outOfFuel => rw [hc] at h; simp at h
  | nullDeref => rw [hl] at h; simp at h
  | emptyFront => rw [hl] at h; simp at h
  | outOfFuel => rw [hl] at h; simp at h

/-- C1, amended. For a network with a fixed neighbor list per node and a
symmetric distance, when `AStarSearch` run from a fresh state returns, the path
it stores is the image of an edge path of the network that ends at the goal
node, and the stored distance is the scale factor times the sum of the edge
distances along that path. When that edge path begins at the start node and the
scale factor is not negative, the stored distance is therefore at least the
scale factor times the minimum over all edge paths from the start to the goal;
it need not be equal to it. -/
theorem stored_distance_is_cost_of_stored_route (M : RouteModel) (sort : Sorter)
    (hs : StdSort sort) (adj : NodeId → List NodeId) (hadj : FixedAdjacency M adj)
    (hsym : ∀ p q, M.dist p q = M.dist q p) (fuel : Nat) (rp : Planner) (hfresh : Fresh rp)
    (rp' : Planner) (hrun : AStarSearch M sort fuel rp = Outcome.ret rp') :
    ∃ ids first, Route adj first rp.end_node ids ∧
      rp'.path = ids.map rp'.nodes ∧
      rp'.distance = M.MetricScale * routeCost M rp'.nodes ids ∧
      (first = rp.start_node → 0 ≤ M.MetricScale →
        ∀ m, IsMinRouteCost M adj rp'.nodes rp.start_node rp.end_node m →
          M.MetricScale * m ≤ rp'.distance) := by
  obtain ⟨rp1, cur, rp2, path, hloop, hcfp, hrp'⟩ := AStarSearch_ret M sort fuel rp rp' hrun
  obtain ⟨hpe, hend, -⟩ := parentsAreEdges_loop M sort hs adj hadj fuel rp hfresh rp1 cur hloop
  obtain ⟨ids, hchain, hpath, hrp2, -, -⟩ := ConstructFinalPath_spec M fuel rp1 _ rp2 path hcfp
  rw [hend] at hchain hpath hrp2
  have hnodes : rp'.nodes = rp1.nodes := by rw [hrp', hrp2]
  have hcost : routeCost M rp1.nodes (rp.end_node :: ids).reverse =
      chainLength M ((rp.end_node :: ids).map rp1.nodes) := by
    rw [routeCost_eq_pathLength M hsym, List.map_reverse, pathLength_reverse]
  have hdist : rp'.distance = M.MetricScale * routeCost M rp'.nodes (rp.end_node :: ids).reverse := by
    rw [hnodes, hcost, hrp', hrp2]
    simp only
    ring
  have hne : (rp.end_node :: ids).reverse ≠ [] := by simp
  obtain ⟨first, hfirst⟩ : ∃ first, (rp.end_node :: ids).reverse.head? = some first := by
    cases hrev : (rp.end_node :: ids).reverse with
    | nil => exact absurd hrev hne
    | cons a l => exact ⟨a, rfl⟩
  have hroute : Route adj first rp.end_node (rp.end_node :: ids).reverse :=
    ⟨hfirst, by simp, edgePath_of_parentChain adj rp1.nodes hpe _ hchain⟩
  refine ⟨(rp.end_node :: ids).reverse, first, hroute, ?_, hdist, ?_⟩
  · rw [hnodes, hrp', hpath, List.map_reverse]
  · intro hf hscale m hm
    rw [hdist]
    rw [hf] at hroute
    exact mul_le_mul_of_nonneg_left (hm.2 _ hroute) hscale

theorem euclid_symm (p q : ℚ × ℚ) : euclid p q = euclid q p := by
  unfold euclid
  congr 1
  ring

theorem fresh_detour : Fresh detourPlanner :=
  ⟨rfl, fun n => by rcases n with _ | _ | _ | n <;> exact ⟨rfl, rfl, rfl⟩⟩

theorem detour_run :
    (AStarSearch detourModel insertionSort 10 detourPlanner).toOption.map
      (fun rp => (coordsOf rp.path, rp.distance)) =
      some ([(0, 0), (-4, 3), (-4, -3), (4, 3)], 21) := by
  decide!

theorem detour_direct_route :
    Route detourAdj 0 3 [0, 1, 3] ∧ routeCost detourModel detourNodes [0, 1, 3] = 15 := by
  refine ⟨⟨rfl, rfl, ?_, ?_, trivial⟩, ?_⟩
  · decide
  · decide
  · decide!

theorem detour_min : IsMinRouteCost detourModel detourAdj detourNodes 0 3 15 := by
  refine ⟨⟨[0, 1, 3], detour_direct_route.1, detour_direct_route.2⟩, ?_⟩
  rintro l ⟨hh, hl, hp⟩
  rcases l with _ | ⟨a, l⟩
  · simp at hh
  simp only [List.head?_cons, Option.some.injEq] at hh
  subst hh
  rcases l with _ | ⟨b, l⟩
  · simp at hl
  obtain ⟨hb, hp⟩ := hp
  simp only [detourAdj, List.mem_cons, List.mem_singleton, List.not_mem_nil, or_false] at hb
  rcases hb with rfl | rfl
  · rcases l with _ | ⟨c, l⟩
    · simp at hl
    obtain ⟨hc, hp⟩ := hp
    simp only [detourAdj, List.mem_singleton] at hc
    subst hc
    rcases l with _ | ⟨d, l⟩
    · exact le_of_eq detour_direct_route.2.symm
    · obtain ⟨hd, -⟩ := hp
      simp [detourAdj] at hd
  · rcases l with _ | ⟨c, l⟩
    · simp at hl
    obtain ⟨hc, hp⟩ := hp
    simp only [detourAdj, List.mem_singleton] at hc
    subst hc
    rcases l with _ | ⟨d, l⟩
    · simp at hl
    obtain ⟨hd, hp⟩ := hp
    simp only [detourAdj, List.mem_singleton] at hd
    subst hd
    rcases l with _ | ⟨e, l⟩
    · have : routeCost detourModel detourNodes [0, 2, 1, 3] = 21 := by decide!
      rw [this]; norm_num
    · obtain ⟨he, -⟩ := hp
      simp [detourAdj] at he

/-- On the four nodes of the detour network `euclid` is a metric. -/
theorem detour_metric : MetricOn detourModel detourNodes [0, 1, 2, 3] := by
  unfold MetricOn
  decide!

/-- When `AStarSearch` returns, the path it stores is not empty. -/
theorem AStarSearch_path_ne_nil (M : RouteModel) (sort : Sorter) (fuel : Nat) (rp rp' : Planner)
    (h : AStarSearch M sort fuel rp = Outcome.ret rp') : rp'.path ≠ [] := by
  obtain ⟨rp1, cur, rp2, path, -, hcfp, hrp'⟩ := AStarSearch_ret M sort fuel rp rp' h
  rw [hrp']
  obtain ⟨ids, -, hpath, -⟩ := ConstructFinalPath_spec M fuel rp1 _ rp2 path hcfp
  simp [hpath]

/-- C1 as stated fails: on the detour network, with the Euclidean distance and
scale 1, `AStarSearch` run from the fresh state ends with `current_node` equal
to the goal and stores the path `0, 2, 1, 3` with distance 21, while the minimum
over the edge paths from the start to the goal is 15 (the path `0, 1, 3`): the
expansion of node `2` overwrites the parent and the `g_value` of node `1`. -/
theorem stored_distance_need_not_be_minimal :
    Fresh detourPlanner ∧ FixedAdjacency detourModel detourAdj ∧
    MetricOn detourModel detourNodes [0, 1, 2, 3] ∧
    (searchLoop detourModel insertionSort 10 (seedSearch detourPlanner) 0).toOption.map
      (fun r => r.2) = some detourPlanner.end_node ∧
    (AStarSearch detourModel insertionSort 10 detourPlanner).toOption.map
      (fun rp => (coordsOf rp.path, rp.distance)) =
      some ([(0, 0), (-4, 3), (-4, -3), (4, 3)], 21) ∧
    IsMinRouteCost detourModel detourAdj detourNodes 0 3 15 ∧
    ¬ ∃ m, IsMinRouteCost detourModel detourAdj detourNodes 0 3 m ∧
      (21 : ℚ) = detourModel.MetricScale * m := by
  refine ⟨fresh_detour, fun _ _ => rfl, detour_metric, by decide!, detour_run, detour_min, ?_⟩
  rintro ⟨m, hm, he⟩
  have h1 := hm.2 _ detour_direct_route.1
  rw [detour_direct_route.2] at h1
  have h2 : detourModel.MetricScale = 1 := rfl
  rw [h2, one_mul] at he
  rw [← he] at h1
  norm_num at h1

/-- C1, amended, at an instance: the detour network. -/
theorem stored_distance_is_cost_of_stored_route_witness :
    ∃ rp', AStarSearch detourModel insertionSort 10 detourPlanner = Outcome.ret rp' ∧
      ∃ ids first, Route detourAdj first detourPlanner.end_node ids ∧
        rp'.path = ids.map rp'.nodes ∧
        rp'.distance = detourModel.MetricScale * routeCost detourModel rp'.nodes ids ∧
        (first = detourPlanner.start_node → 0 ≤ detourModel.MetricScale →
          ∀ m, IsMinRouteCost detourModel detourAdj rp'.nodes detourPlanner.start_node
              detourPlanner.end_node m →
            detourModel.MetricScale * m ≤ rp'.distance) := by
  obtain ⟨rp', hrun, -⟩ := Outcome.ret_of_map _ _ _ detour_run
  exact ⟨rp', hrun, stored_distance_is_cost_of_stored_route detourModel insertionSort
    insertionSort_stdSort detourAdj (fun _ _ => rfl) euclid_symm 10 detourPlanner fresh_detour
    rp' hrun⟩

/-! ## The states of the loop of `AStarSearch` -/

theorem searchSteps_invariant (M : RouteModel) (sort : Sorter) (hs : StdSort sort)
    (P : Planner → NodeId → List NodeId → Prop)
    (hstep : ∀ rp cur ex next rest, P rp cur ex → rp.open_list ≠ [] → cur ≠ rp.end_node →
      (next :: rest).Perm (rp.open_list ++ M.FindNeighbors rp.nodes cur) →
      P { AddNeighbors M rp cur with open_list := rest } next (ex ++ [cur]))
    (k : Nat) (rp : Planner) (cur : NodeId) (ex : List NodeId) (rp' : Planner) (cur' : NodeId)
    (ex' : List NodeId) (h0 : P rp cur ex)
    (h : searchSteps M sort k rp cur ex = some (rp', cur', ex')) : P rp' cur' ex' := by
  induction k generalizing rp cur ex with
  | zero =>
    simp only [searchSteps, Option.some.injEq, Prod.mk.injEq] at h
    obtain ⟨rfl, rfl, rfl⟩ := h
    exact h0
  | succ k ih =>
    unfold searchSteps at h
    split at h
    · rename_i hc
      have hne : rp.open_list ≠ [] := List.length_pos.mp hc.1
      obtain ⟨next, rest, hnext, hperm⟩ := iteration_spec M sort hs rp cur hne
      simp only [hnext] at h
      exact ih _ _ _ (hstep rp cur ex next rest h0 hne hc.2 hperm) h
    · simp at h

theorem Option.some_of_map {α β : Type} (o : Option α) (f : α → β) (b : β)
    (h : o.map f = some b) : ∃ a, o = some a ∧ f a = b := by
  cases o with
  | none => simp at h
  | some a => exact ⟨a, rfl, by simpa using h⟩

theorem seedSearch_fields (rp : Planner) (n : NodeId) :
    ((seedSearch rp).nodes n).x = (rp.nodes n).x ∧
    ((seedSearch rp).nodes n).y = (rp.nodes n).y ∧
    ((seedSearch rp).nodes n).parent = (rp.nodes n).parent ∧
    ((seedSearch rp).nodes n).g_value = (rp.nodes n).g_value ∧
    ((seedSearch rp).nodes n).h_value = (rp.nodes n).h_value ∧
    ((seedSearch rp).nodes n).visited = (decide (n = rp.start_node) || (rp.nodes n).visited) := by
  by_cases h : n = rp.start_node
  · subst h; simp [seedSearch, Planner.store, setNode]
  · simp [seedSearch, Planner.store, setNode, h]

theorem seedSearch_open_list (rp : Planner) :
    (seedSearch rp).open_list = rp.open_list ++ [rp.start_node] := rfl

/-! ## The frame of `AddNeighbors` -/

/-- C11. After `AddNeighbors(c)` the frontier is the former frontier followed by
the entries of the neighbor list of `c` in order, so its length is the sum of
the two lengths, and `visited`, `parent`, `g_value` and `h_value` of every node
that is not in that list are unchanged. -/
theorem AddNeighbors_grows_frontier_only (M : RouteModel) (rp : Planner) (c n : NodeId)
    (hn : n ∉ M.FindNeighbors rp.nodes c) :
    (AddNeighbors M rp c).open_list = rp.open_list ++ M.FindNeighbors rp.nodes c ∧
    (AddNeighbors M rp c).open_list.length =
      rp.open_list.length + (M.FindNeighbors rp.nodes c).length ∧
    ((AddNeighbors M rp c).nodes n).visited = (rp.nodes n).visited ∧
    ((AddNeighbors M rp c).nodes n).parent = (rp.nodes n).parent ∧
    ((AddNeighbors M rp c).nodes n).g_value = (rp.nodes n).g_value ∧
    ((AddNeighbors M rp c).nodes n).h_value = (rp.nodes n).h_value := by
  refine ⟨AddNeighbors_open_list M rp c, ?_, AddNeighbors_frame M rp c n hn⟩
  rw [AddNeighbors_open_list, List.length_append]

/-- C11, at an instance: the detour network with frontier `[3, 0]`, the current
node `0` with neighbor list `[1, 2]`, and the node `3` outside that list. -/
theorem AddNeighbors_grows_frontier_only_witness :
    (3 : NodeId) ∉ detourModel.FindNeighbors detourPlanner.nodes 0 ∧
    (AddNeighbors detourModel { detourPlanner with open_list := [3, 0] } 0).open_list =
      [3, 0] ++ [1, 2] ∧
    (AddNeighbors detourModel { detourPlanner with open_list := [3, 0] } 0).open_list.length =
      [3, 0].length + [1, 2].length ∧
    ((AddNeighbors detourModel { detourPlanner with open_list := [3, 0] } 0).nodes 3).visited =
      (detourNodes 3).visited ∧
    ((AddNeighbors detourModel { detourPlanner with open_list := [3, 0] } 0).nodes 3).parent =
      (detourNodes 3).parent ∧
    ((AddNeighbors detourModel { detourPlanner with open_list := [3, 0] } 0).nodes 3).g_value =
      (detourNodes 3).g_value ∧
    ((AddNeighbors detourModel { detourPlanner with open_list := [3, 0] } 0).nodes 3).h_value =
      (detourNodes 3).h_value :=
  ⟨by decide, AddNeighbors_grows_frontier_only detourModel
    { detourPlanner with open_list := [3, 0] } 0 3 (by decide)⟩

/-! ## The constructor -/

/-- C15. For all inputs and every nearest-node lookup, the constructor sets
`start_node` to the node that the lookup returns for `(start_x/100, start_y/100)`
and `end_node` to the node that it returns for `(end_x/100, end_y/100)`, in exact
arithmetic, and leaves the node memory, the frontier, the distance and the path
as they were. -/
theorem construct_resolves_scaled_inputs
    (FindClosestNode : (NodeId → Node) → ℚ → ℚ → NodeId) (rp : Planner)
    (start_x start_y end_x end_y : ℚ) :
    (construct FindClosestNode rp start_x start_y end_x end_y).start_node =
      FindClosestNode rp.nodes (start_x / 100) (start_y / 100) ∧
    (construct FindClosestNode rp start_x start_y end_x end_y).end_node =
      FindClosestNode rp.nodes (end_x / 100) (end_y / 100) ∧
    (construct FindClosestNode rp start_x start_y end_x end_y).nodes = rp.nodes ∧
    (construct FindClosestNode rp start_x start_y end_x end_y).open_list = rp.open_list ∧
    (construct FindClosestNode rp start_x start_y end_x end_y).distance = rp.distance ∧
    (construct FindClosestNode rp start_x start_y end_x end_y).path = rp.path := by
  have e : ∀ v : ℚ, v * 0.01 = v / 100 := by
    intro v; norm_num; ring
  refine ⟨?_, ?_, rfl, rfl, rfl, rfl⟩
  · show FindClosestNode rp.nodes (start_x * 0.01) (start_y * 0.01) = _
    rw [e, e]
  · show FindClosestNode rp.nodes (end_x * 0.01) (end_y * 0.01) = _
    rw [e, e]

/-! ## Frontier members are visited -/

theorem fold_frontier_visited (M : RouteModel) (c : NodeId) (L : List NodeId) (rp : Planner)
    (h : ∀ n ∈ rp.open_list, (rp.nodes n).visited = true) :
    ∀ n ∈ (L.foldl (visitNeighbor M c) rp).open_list,
      ((L.foldl (visitNeighbor M c) rp).nodes n).visited = true := by
  intro n hn
  by_cases hL : n ∈ L
  · exact (fold_marks M c L rp n hL).1
  · rw [fold_frame M c L rp n hL]
    rw [fold_open_list] at hn
    rcases List.mem_append.mp hn with h' | h'
    · exact h n h'
    · exact absurd h' hL

theorem frontier_visited_step (M : RouteModel) (rp : Planner) (cur next : NodeId)
    (rest : List NodeId) (h : ∀ n ∈ rp.open_list, (rp.nodes n).visited = true)
    (hperm : (next :: rest).Perm (rp.open_list ++ M.FindNeighbors rp.nodes cur)) :
    ∀ n ∈ next :: rest, ((AddNeighbors M rp cur).nodes n).visited = true := by
  intro n hn
  by_cases hL : n ∈ M.FindNeighbors rp.nodes cur
  · exact (AddNeighbors_marks M rp cur n hL).1
  · rw [(AddNeighbors_frame M rp cur n hL).1]
    rcases List.mem_append.mp (hperm.subset hn) with h' | h'
    · exact h n h'
    · exact absurd h' hL

theorem seed_frontier_visited (rp : Planner) (hfresh : Fresh rp) :
    ∀ n ∈ (seedSearch rp).open_list, ((seedSearch rp).nodes n).visited = true := by
  intro n hn
  rw [seedSearch_open_list, hfresh.1] at hn
  have hn' : n = rp.start_node := by simpa using hn
  rw [(seedSearch_fields rp n).2.2.2.2.2, hn']
  simp

/-- C18. At every point of `AStarSearch` run from a fresh state, on every
network and for every `std::sort` that meets its contract, every node in the
frontier is visited: at the loop condition after any number `k` of iterations,
and inside the call `AddNeighbors(current_node)` that follows, after any number
`j` of neighbors. -/
theorem frontier_members_are_visited (M : RouteModel) (sort : Sorter) (hs : StdSort sort)
    (rp : Planner) (hfresh : Fresh rp) (k : Nat) (rp' : Planner) (cur' : NodeId)
    (ex : List NodeId)
    (h : searchSteps M sort k (seedSearch rp) rp.start_node [] = some (rp', cur', ex)) :
    (∀ n ∈ rp'.open_list, (rp'.nodes n).visited = true) ∧
    ∀ j, ∀ n ∈ (((M.FindNeighbors rp'.nodes cur').take j).foldl (visitNeighbor M cur')
          (storeNeighbors M rp' cur')).open_list,
      ((((M.FindNeighbors rp'.nodes cur').take j).foldl (visitNeighbor M cur')
          (storeNeighbors M rp' cur')).nodes n).visited = true := by
  have hhead : ∀ n ∈ rp'.open_list, (rp'.nodes n).visited = true :=
    searchSteps_invariant M sort hs (fun p _ _ => ∀ n ∈ p.open_list, (p.nodes n).visited = true)
      (by
        intro p c _ next rest hp _ _ hperm n hn
        exact frontier_visited_step M p c next rest hp hperm n (List.mem_cons_of_mem _ hn))
      k _ _ _ rp' cur' ex (seed_frontier_visited rp hfresh) h
  refine ⟨hhead, fun j => ?_⟩
  apply fold_frontier_visited
  intro n hn
  rw [(stored_fields M rp' cur' n).2.2.1]
  exact hhead n hn

theorem detour_steps :
    (searchSteps detourModel insertionSort 5 (seedSearch detourPlanner) 0 []).map
      (fun r => (r.1.open_list, r.2.1, r.2.2)) = some ([1, 1, 3], 1, [0, 0, 2, 2, 1]) := by
  decide!

/-- C18, at an instance: the detour network after five iterations, with frontier
`[1, 1, 3]`. -/
theorem frontier_members_are_visited_witness :
    ∃ rp' cur' ex,
      searchSteps detourModel insertionSort 5 (seedSearch detourPlanner)
        detourPlanner.start_node [] = some (rp', cur', ex) ∧
      rp'.open_list = [1, 1, 3] ∧
      (∀ n ∈ rp'.open_list, (rp'.nodes n).visited = true) ∧
      ∀ j, ∀ n ∈ (((detourModel.FindNeighbors rp'.nodes cur').take j).foldl
            (visitNeighbor detourModel cur') (storeNeighbors detourModel rp' cur')).open_list,
        ((((detourModel.FindNeighbors rp'.nodes cur').take j).foldl
            (visitNeighbor detourModel cur')
            (storeNeighbors detourModel rp' cur')).nodes n).visited = true := by
  obtain ⟨⟨rp', cur', ex⟩, hrun, hval⟩ := Option.some_of_map _ _ _ detour_steps
  simp only [Prod.mk.injEq] at hval
  exact ⟨rp', cur', ex, hrun, hval.1,
    frontier_members_are_visited detourModel insertionSort insertionSort_stdSort detourPlanner
      fresh_detour 5 rp' cur' ex hrun⟩

/-! ## The stored path is a walk -/

theorem parentChain_chain' (nodes : NodeId → Node) (l : List NodeId) :
    ParentChain nodes l ↔ l.Chain' (fun c p => (nodes c).parent = some p) := by
  induction l with
  | nil => simp [ParentChain]
  | cons c l ih =>
    cases l with
    | nil => simp [ParentChain]
    | cons p rest =>
      rw [List.chain'_cons, ← ih]
      rfl

theorem parentsAreEdges_seed (adj : NodeId → List NodeId) (rp : Planner) (hfresh : Fresh rp) :
    ParentsAreEdges adj (seedSearch rp).nodes := by
  intro n p hp
  rw [(seedSearch_fields rp n).2.2.1, (hfresh.2 n).2.2] at hp
  simp at hp

/-- C19. For a network with a fixed neighbor list per node, when `AStarSearch`
run from a fresh state stores a path, the path is the image of a list of nodes
in which every consecutive pair `(p, c)` has `p` as the parent of `c` and `c` in
the neighbor list of `p`; and at the loop condition after any number of
iterations, every node whose parent is set is in the neighbor list of its
parent. -/
theorem stored_path_is_a_walk (M : RouteModel) (sort : Sorter) (hs : StdSort sort)
    (adj : NodeId → List NodeId) (hadj : FixedAdjacency M adj) (fuel : Nat) (rp : Planner)
    (hfresh : Fresh rp) (rp' : Planner) (hrun : AStarSearch M sort fuel rp = Outcome.ret rp') :
    (∃ ids : List NodeId, rp'.path = ids.map rp'.nodes ∧
      ids.Chain' (fun p c => (rp'.nodes c).parent = some p ∧ c ∈ adj p)) ∧
    ∀ k rpk curk exk,
      searchSteps M sort k (seedSearch rp) rp.start_node [] = some (rpk, curk, exk) →
      ∀ n p, (rpk.nodes n).parent = some p → n ∈ adj p := by
  constructor
  · obtain ⟨rp1, cur, rp2, path, hloop, hcfp, hrp'⟩ := AStarSearch_ret M sort fuel rp rp' hrun
    obtain ⟨hpe, -, -⟩ := parentsAreEdges_loop M sort hs adj hadj fuel rp hfresh rp1 cur hloop
    obtain ⟨ids, hchain, hpath, hrp2, -, -⟩ := ConstructFinalPath_spec M fuel rp1 _ rp2 path hcfp
    have hnodes : rp'.nodes = rp1.nodes := by rw [hrp', hrp2]
    refine ⟨(rp1.end_node :: ids).reverse, ?_, ?_⟩
    · rw [hnodes, hrp', hpath, List.map_reverse]
    · rw [List.chain'_reverse, hnodes]
      rw [parentChain_chain'] at hchain
      exact hchain.imp (fun c p h => ⟨h, hpe c p h⟩)
  · intro k rpk curk exk hk
    exact searchSteps_invariant M sort hs (fun p _ _ => ParentsAreEdges adj p.nodes)
      (by
        intro p c _ next rest hp _ _ _
        exact parentsAreEdges_step M adj hadj p c hp)
      k _ _ _ rpk curk exk (parentsAreEdges_seed adj rp hfresh) hk

/-- C19, at an instance: the detour network, where the stored path is the image
of `0, 2, 1, 3`. -/
theorem stored_path_is_a_walk_witness :
    ∃ rp', AStarSearch detourModel insertionSort 10 detourPlanner = Outcome.ret rp' ∧
      coordsOf rp'.path = [(0, 0), (-4, 3), (-4, -3), (4, 3)] ∧
      (∃ ids : List NodeId, rp'.path = ids.map rp'.nodes ∧
        ids.Chain' (fun p c => (rp'.nodes c).parent = some p ∧ c ∈ detourAdj p)) ∧
      ∀ k rpk curk exk,
        searchSteps detourModel insertionSort k (seedSearch detourPlanner)
          detourPlanner.start_node [] = some (rpk, curk, exk) →
        ∀ n p, (rpk.nodes n).parent = some p → n ∈ detourAdj p := by
  obtain ⟨rp', hrun, hval⟩ := Outcome.ret_of_map _ _ _ detour_run
  simp only [Prod.mk.injEq] at hval
  exact ⟨rp', hrun, hval.1, stored_path_is_a_walk detourModel insertionSort
    insertionSort_stdSort detourAdj (fun _ _ => rfl) 10 detourPlanner fresh_detour rp' hrun⟩

/-! ## Admissibility of the cached heuristic -/

theorem straight_line_le_route (M : RouteModel) (hm : IsMetric M.dist) (nodes : NodeId → Node)
    (l : List NodeId) (n t : NodeId) (hhead : l.head? = some n) (hlast : l.getLast? = some t) :
    (nodes n).distance M (nodes t) ≤ routeCost M nodes l := by
  obtain ⟨-, -, hzero, htri⟩ := hm
  induction l generalizing n with
  | nil => simp at hhead
  | cons a l ih =>
    simp only [List.head?_cons, Option.some.injEq] at hhead
    subst hhead
    cases l with
    | nil =>
      simp only [List.getLast?_singleton, Option.some.injEq] at hlast
      subst hlast
      simp [routeCost, Node.distance, hzero]
    | cons b l =>
      have hb := ih b rfl (by simpa using hlast)
      have h3 := htri ((nodes a).x, (nodes a).y) ((nodes b).x, (nodes b).y)
        ((nodes t).x, (nodes t).y)
      simp only [routeCost, Node.distance] at hb ⊢
      linarith

theorem h_cached_step (M : RouteModel) (rp : Planner) (c : NodeId)
    (h : ∀ n, (rp.nodes n).parent ≠ none →
      (rp.nodes n).h_value = (rp.nodes n).distance M (rp.nodes rp.end_node)) :
    ∀ n, ((AddNeighbors M rp c).nodes n).parent ≠ none →
      ((AddNeighbors M rp c).nodes n).h_value =
        ((AddNeighbors M rp c).nodes n).distance M
          ((AddNeighbors M rp c).nodes (AddNeighbors M rp c).end_node) := by
  intro n hp
  rw [(AddNeighbors_ends M rp c).2.1, AddNeighbors_distance]
  by_cases hn : n ∈ M.FindNeighbors rp.nodes c
  · exact (AddNeighbors_marks M rp c n hn).2.2
  · rw [(AddNeighbors_frame M rp c n hn).2.1] at hp
    rw [(AddNeighbors_frame M rp c n hn).2.2.2]
    exact h n hp

/-- C12. When the distance is a metric, then at the loop condition of
`AStarSearch` run from a fresh state, after any number of iterations, every node
that `AddNeighbors` has discovered (every node whose parent is set) has
`h_value` equal to `distance(n, goal)`, and that value is at most the sum of the
edge distances along every edge path from the node to the goal node, whatever
the neighbor lists are. -/
theorem cached_heuristic_is_admissible (M : RouteModel) (sort : Sorter) (hs : StdSort sort)
    (hm : IsMetric M.dist) (rp : Planner) (hfresh : Fresh rp) (k : Nat) (rp' : Planner)
    (cur' : NodeId) (ex : List NodeId)
    (h : searchSteps M sort k (seedSearch rp) rp.start_node [] = some (rp', cur', ex))
    (n : NodeId) (hn : (rp'.nodes n).parent ≠ none) :
    (rp'.nodes n).h_value = (rp'.nodes n).distance M (rp'.nodes rp.end_node) ∧
    ∀ (adj : NodeId → List NodeId) (l : List NodeId), Route adj n rp.end_node l →
      (rp'.nodes n).h_value ≤ routeCost M rp'.nodes l := by
  obtain ⟨hend, hcached⟩ := searchSteps_invariant M sort hs
    (fun p _ _ => p.end_node = rp.end_node ∧ ∀ n, (p.nodes n).parent ≠ none →
      (p.nodes n).h_value = (p.nodes n).distance M (p.nodes p.end_node))
    (by
      intro p c _ next rest hp _ _ _
      exact ⟨(AddNeighbors_ends M p c).2.1.trans hp.1, h_cached_step M p c hp.2⟩)
    k (seedSearch rp) rp.start_node [] rp' cur' ex
    ⟨rfl, fun m hpm => absurd
      (((seedSearch_fields rp m).2.2.1).trans (hfresh.2 m).2.2) hpm⟩
    h
  have hval := hcached n hn
  rw [hend] at hval
  refine ⟨hval, fun adj l hroute => ?_⟩
  rw [hval]
  exact straight_line_le_route M hm rp'.nodes l n rp.end_node hroute.1 hroute.2.1

/-! ## Determinism without ties -/

theorem eq_of_map_eq_of_injOn {α β : Type} (f : α → β) :
    ∀ l1 l2 : List α, (∀ x ∈ l1, ∀ y ∈ l2, f x = f y → x = y) → l1.map f = l2.map f →
      l1 = l2 := by
  intro l1
  induction l1 with
  | nil =>
    intro l2 _ h
    cases l2 with
    | nil => rfl
    | cons b l2 => simp at h
  | cons a l1 ih =>
    intro l2 hinj h
    cases l2 with
    | nil => simp at h
    | cons b l2 =>
      simp only [List.map_cons, List.cons.injEq] at h
      have hab : a = b := hinj a (List.mem_cons_self _ _) b (List.mem_cons_self _ _) h.1
      have hrest := ih l2
        (fun x hx y hy => hinj x (List.mem_cons_of_mem _ hx) y (List.mem_cons_of_mem _ hy)) h.2
      rw [hab, hrest]

theorem sort_unique (sort1 sort2 : Sorter) (hs1 : StdSort sort1) (hs2 : StdSort sort2)
    (nodes : NodeId → Node) (l : List NodeId) (hd : distinctF nodes l) :
    sort1 (Compare nodes) l = sort2 (Compare nodes) l := by
  obtain ⟨hp1, hsorted1⟩ := hs1 (Compare nodes) l
  obtain ⟨hp2, hsorted2⟩ := hs2 (Compare nodes) l
  have hle : ∀ s : List NodeId, s.Pairwise (fun a b => Compare nodes b a = false) →
      (s.map (fValue nodes)).Sorted (· ≤ ·) := by
    intro s hs
    rw [List.Sorted, List.pairwise_map]
    exact hs.imp (fun h => by simpa [Compare] using h)
  have hnodup : (l.map (fValue nodes)).Nodup := by
    rw [List.Nodup, List.pairwise_map]
    exact hd
  have hinj := List.inj_on_of_nodup_map hnodup
  have hmap : (sort1 (Compare nodes) l).map (fValue nodes) =
      (sort2 (Compare nodes) l).map (fValue nodes) :=
    List.eq_of_perm_of_sorted ((hp1.trans hp2.symm).map _)
      (hle _ (hsorted1 (Compare_strictWeak nodes))) (hle _ (hsorted2 (Compare_strictWeak nodes)))
  apply eq_of_map_eq_of_injOn (fValue nodes) _ _ _ hmap
  intro x hx y hy hxy
  exact hinj (hp1.subset hx) (hp2.subset hy) hxy

theorem NextNode_unique (sort1 sort2 : Sorter) (hs1 : StdSort sort1) (hs2 : StdSort sort2)
    (rp : Planner) (hd : distinctF rp.nodes rp.open_list) :
    NextNode sort1 rp = NextNode sort2 rp := by
  unfold NextNode
  rw [sort_unique sort1 sort2 hs1 hs2 rp.nodes rp.open_list hd]

theorem searchLoop_unique (M : RouteModel) (sort1 sort2 : Sorter) (hs1 : StdSort sort1)
    (hs2 : StdSort sort2) (fuel : Nat) (rp : Planner) (cur : NodeId)
    (hnt : noTies M sort1 fuel rp cur = true) :
    searchLoop M sort1 fuel rp cur = searchLoop M sort2 fuel rp cur := by
  induction fuel generalizing rp cur with
  | zero => unfold searchLoop; rfl
  | succ fuel ih =>
    unfold searchLoop
    unfold noTies at hnt
    split
    · rename_i hc
      rw [if_pos hc, Bool.and_eq_true, decide_eq_true_eq] at hnt
      have hnext := NextNode_unique sort1 sort2 hs1 hs2 _ hnt.1
      rw [← hnext]
      cases hn : NextNode sort1 (AddNeighbors M rp cur) with
      | none => rfl
      | some r =>
        obtain ⟨next, rp1⟩ := r
        have h2 := hnt.2
        rw [hn] at h2
        exact ih rp1 next h2
    · rfl

theorem searchSteps_unique (M : RouteModel) (sort1 sort2 : Sorter) (hs1 : StdSort sort1)
    (hs2 : StdSort sort2) (fuel k : Nat) (hk : k ≤ fuel) (rp : Planner) (cur : NodeId)
    (ex : List NodeId) (hnt : noTies M sort1 fuel rp cur = true) :
    searchSteps M sort1 k rp cur ex = searchSteps M sort2 k rp cur ex := by
  induction k generalizing fuel rp cur ex with
  | zero => rfl
  | succ k ih =>
    obtain ⟨fuel, rfl⟩ : ∃ f, fuel = f + 1 := ⟨fuel - 1, by omega⟩
    unfold searchSteps
    unfold noTies at hnt
    split
    · rename_i hc
      rw [if_pos hc, Bool.and_eq_true, decide_eq_true_eq] at hnt
      have hnext := NextNode_unique sort1 sort2 hs1 hs2 _ hnt.1
      rw [← hnext]
      cases hn : NextNode sort1 (AddNeighbors M rp cur) with
      | none => rfl
      | some r =>
        obtain ⟨next, rp1⟩ := r
        have h2 := hnt.2
        rw [hn] at h2
        exact ih fuel (by omega) rp1 next _ h2
    · rfl

/-- C14. When in each of the first `fuel` iterations of the search the frontier
that `NextNode` sorts has pairwise distinct sums `g_value + h_value`, two runs
of `AStarSearch` that use two implementations of `std::sort`, both meeting its
contract, are in the same state after every number of iterations up to `fuel`
(same planner, same `current_node`, same expanded nodes), and have the same
outcome: the same stored path and the same distance. -/
theorem no_ties_determinism (M : RouteModel) (sort1 sort2 : Sorter) (hs1 : StdSort sort1)
    (hs2 : StdSort sort2) (fuel : Nat) (rp : Planner)
    (hnt : noTies M sort1 fuel (seedSearch rp) rp.start_node = true) :
    (∀ k, k ≤ fuel →
      searchSteps M sort1 k (seedSearch rp) rp.start_node [] =
        searchSteps M sort2 k (seedSearch rp) rp.start_node []) ∧
    AStarSearch M sort1 fuel rp = AStarSearch M sort2 fuel rp := by
  constructor
  · intro k hk
    exact searchSteps_unique M sort1 sort2 hs1 hs2 fuel k hk _ _ _ hnt
  · unfold AStarSearch
    rw [searchLoop_unique M sort1 sort2 hs1 hs2 fuel _ _ hnt]

theorem reverseSort_stdSort : StdSort reverseSort := by
  intro comp l
  obtain ⟨hp, hsorted⟩ := insertionSort_stdSort comp l.reverse
  exact ⟨hp.trans (List.reverse_perm l), hsorted⟩

/-- C14, at an instance: the fork network with a lookup that leaves out visited
nodes, sorted once by insertion sort and once by insertion sort of the reversed
vector; the search stores the path `0, 2, 3` with distance 13. -/
theorem no_ties_determinism_witness :
    noTies forkUnvisitedModel insertionSort 6 (seedSearch detourPlanner) 0 = true ∧
    (AStarSearch forkUnvisitedModel insertionSort 6 detourPlanner).toOption.map
      (fun rp => (coordsOf rp.path, rp.distance)) = some ([(0, 0), (-4, 3), (4, 3)], 13) ∧
    (∀ k, k ≤ 6 →
      searchSteps forkUnvisitedModel insertionSort k (seedSearch detourPlanner)
          detourPlanner.start_node [] =
        searchSteps forkUnvisitedModel reverseSort k (seedSearch detourPlanner)
          detourPlanner.start_node []) ∧
    AStarSearch forkUnvisitedModel insertionSort 6 detourPlanner =
      AStarSearch forkUnvisitedModel reverseSort 6 detourPlanner :=
  ⟨by decide!, by decide!,
    no_ties_determinism forkUnvisitedModel insertionSort reverseSort insertionSort_stdSort
      reverseSort_stdSort 6 detourPlanner (by decide!)⟩

/-! ## Monotone `g_value` along the stored path -/

theorem euclid_nonneg (p q : ℚ × ℚ) : 0 ≤ euclid p q :=
  Rat.sqrt_nonneg _

theorem fresh_line (s t : NodeId) :
    Fresh { nodes := lineNodes, open_list := [], start_node := s, end_node := t,
            distance := 0, path := [] } :=
  ⟨rfl, fun n => by rcases n with _ | _ | _ | n <;> exact ⟨rfl, rfl, rfl⟩⟩

/-- C13 as stated fails: on the line network with goal `2`, where the neighbor
lists are fixed and the distance is not negative, `AStarSearch` run from the
fresh state ends with `current_node` equal to the goal and stores the path
`0, 1, 2`, whose elements have the `g_value`s 10, 5 and 10: the expansion of
node `1` gives the start node, its neighbor, the `g_value` 5 + 5. -/
theorem g_value_need_not_be_monotone :
    Fresh lineMidPlanner ∧ FixedAdjacency lineModel lineAdj ∧
    (∀ p q, 0 ≤ lineModel.dist p q) ∧
    (searchLoop lineModel insertionSort 10 (seedSearch lineMidPlanner) 0).toOption.map
      (fun r => r.2) = some lineMidPlanner.end_node ∧
    (AStarSearch lineModel insertionSort 10 lineMidPlanner).toOption.map
      (fun rp => (coordsOf rp.path, rp.path.map (fun n => n.g_value))) =
      some ([(0, 0), (3, 4), (6, 8)], [10, 5, 10]) ∧
    ¬ List.Chain' (fun a b : ℚ => a ≤ b) [10, 5, 10] := by
  refine ⟨fresh_line 0 2, fun _ _ => rfl, euclid_nonneg, by decide!, by decide!, ?_⟩
  intro h
  have := (List.chain'_cons.mp h).1
  norm_num at this

theorem unvisited_not_mem (M : RouteModel) (hu : OnlyUnvisited M) (rp : Planner) (c n : NodeId)
    (hv : (rp.nodes n).visited = true) : n ∉ M.FindNeighbors rp.nodes c := by
  intro hn
  rw [hu rp.nodes c n hn] at hv
  exact absurd hv (by simp)

theorem visited_step (M : RouteModel) (hu : OnlyUnvisited M) (rp : Planner) (c n : NodeId)
    (hv : (rp.nodes n).visited = true) :
    ((AddNeighbors M rp c).nodes n).visited = true ∧
    ((AddNeighbors M rp c).nodes n).parent = (rp.nodes n).parent ∧
    ((AddNeighbors M rp c).nodes n).g_value = (rp.nodes n).g_value := by
  obtain ⟨h1, h2, h3, -⟩ := AddNeighbors_frame M rp c n (unvisited_not_mem M hu rp c n hv)
  exact ⟨h1.trans hv, h2, h3⟩

/-- An invariant `Q` of the node memory that every call `AddNeighbors(c)` with a
visited `c` preserves holds when the loop is left; `current_node` is visited
there. -/
theorem nodes_invariant_loop (M : RouteModel) (sort : Sorter) (hs : StdSort sort)
    (Q : (NodeId → Node) → Prop)
    (hQ : ∀ p c, Q p.nodes → (p.nodes c).visited = true → Q (AddNeighbors M p c).nodes)
    (fuel : Nat) (rp : Planner) (hfresh : Fresh rp) (hQ0 : Q (seedSearch rp).nodes)
    (rp1 : Planner) (cur : NodeId)
    (hrun : searchLoop M sort fuel (seedSearch rp) rp.start_node = Outcome.ret (rp1, cur)) :
    Q rp1.nodes ∧ (rp1.nodes cur).visited = true ∧ rp1.start_node = rp.start_node ∧
      rp1.end_node = rp.end_node := by
  obtain ⟨⟨hq, hc, -⟩, hst, he⟩ := (searchLoop_invariant M sort hs
    (fun p c => (Q p.nodes ∧ (p.nodes c).visited = true ∧
      ∀ n ∈ p.open_list, (p.nodes n).visited = true) ∧
      p.start_node = rp.start_node ∧ p.end_node = rp.end_node)
    (by
      rintro p c next rest ⟨⟨hq, hc, hO⟩, hst, he⟩ - - hperm
      have hvis := frontier_visited_step M p c next rest hO hperm
      exact ⟨⟨hQ p c hq hc, hvis next (List.mem_cons_self _ _),
        fun n hn => hvis n (List.mem_cons_of_mem _ hn)⟩,
        (AddNeighbors_ends M p c).1.trans hst, (AddNeighbors_ends M p c).2.1.trans he⟩)
    fuel (seedSearch rp) rp.start_node rp1 cur
    ⟨⟨hQ0, by rw [(seedSearch_fields rp _).2.2.2.2.2]; simp,
      seed_frontier_visited rp hfresh⟩, rfl, rfl⟩ hrun).1
  exact ⟨hq, hc, hst, he⟩

theorem monotone_step (M : RouteModel) (hu : OnlyUnvisited M) (hnn : ∀ p q, 0 ≤ M.dist p q)
    (rp : Planner) (c : NodeId) (hc : (rp.nodes c).visited = true)
    (h : ∀ n q, (rp.nodes n).parent = some q →
      (rp.nodes q).visited = true ∧ (rp.nodes q).g_value ≤ (rp.nodes n).g_value) :
    ∀ n q, ((AddNeighbors M rp c).nodes n).parent = some q →
      ((AddNeighbors M rp c).nodes q).visited = true ∧
        ((AddNeighbors M rp c).nodes q).g_value ≤ ((AddNeighbors M rp c).nodes n).g_value := by
  intro n q hp
  by_cases hn : n ∈ M.FindNeighbors rp.nodes c
  · rw [(AddNeighbors_marks M rp c n hn).2.1] at hp
    simp only [Option.some.injEq] at hp
    subst hp
    obtain ⟨hv, -, hg⟩ := visited_step M hu rp c c hc
    refine ⟨hv, ?_⟩
    rw [hg, AddNeighbors_g M rp c n hn
      (fun hcc => absurd hcc (unvisited_not_mem M hu rp c c hc))]
    have := hnn ((rp.nodes c).x, (rp.nodes c).y) ((rp.nodes n).x, (rp.nodes n).y)
    simp only [Node.distance]
    linarith
  · obtain ⟨-, hpar, hg, -⟩ := AddNeighbors_frame M rp c n hn
    rw [hpar] at hp
    obtain ⟨hvq, hle⟩ := h n q hp
    obtain ⟨hv, -, hgq⟩ := visited_step M hu rp c q hvq
    exact ⟨hv, by rw [hgq, hg]; exact hle⟩

/-- C13, amended. When the neighbor lookup returns only nodes that are not yet
visited and the distance is not negative, then on the path that `AStarSearch`
run from a fresh state stores, the `g_value` of each element is at most the
`g_value` of the element after it. -/
theorem stored_path_g_values_monotone (M : RouteModel) (sort : Sorter) (hs : StdSort sort)
    (hu : OnlyUnvisited M) (hnn : ∀ p q, 0 ≤ M.dist p q) (fuel : Nat) (rp : Planner)
    (hfresh : Fresh rp) (rp' : Planner) (hrun : AStarSearch M sort fuel rp = Outcome.ret rp') :
    rp'.path.Chain' (fun a b => a.g_value ≤ b.g_value) := by
  obtain ⟨rp1, cur, rp2, path, hloop, hcfp, hrp'⟩ := AStarSearch_ret M sort fuel rp rp' hrun
  obtain ⟨hq, -, -, -⟩ := nodes_invariant_loop M sort hs
    (fun nodes => ∀ n q, (nodes n).parent = some q →
      (nodes q).visited = true ∧ (nodes q).g_value ≤ (nodes n).g_value)
    (fun p c hp hc => monotone_step M hu hnn p c hc hp) fuel rp hfresh
    (by
      intro n q hp
      rw [(seedSearch_fields rp n).2.2.1, (hfresh.2 n).2.2] at hp
      simp at hp)
    rp1 cur hloop
  obtain ⟨ids, hchain, hpath, -, -, -⟩ := ConstructFinalPath_spec M fuel rp1 _ rp2 path hcfp
  rw [hrp', hpath]
  simp only
  rw [List.chain'_reverse, List.chain'_map]
  rw [parentChain_chain'] at hchain
  exact hchain.imp (fun c p h => (hq c p h).2)

theorem fork_run :
    (AStarSearch forkUnvisitedModel insertionSort 6 detourPlanner).toOption.map
      (fun rp => (coordsOf rp.path, rp.path.map (fun n => n.g_value))) =
      some ([(0, 0), (-4, 3), (4, 3)], [0, 5, 13]) := by
  decide!

theorem fork_only_unvisited : OnlyUnvisited forkUnvisitedModel := by
  intro nodes c n hn
  simp only [forkUnvisitedModel, List.mem_filter, Bool.not_eq_true'] at hn
  exact hn.2

/-- C13, amended, at an instance: the fork network with a lookup that leaves out
visited nodes; the stored path `0, 2, 3` has the `g_value`s 0, 5 and 13. -/
theorem stored_path_g_values_monotone_witness :
    ∃ rp', AStarSearch forkUnvisitedModel insertionSort 6 detourPlanner = Outcome.ret rp' ∧
      rp'.path.map (fun n => n.g_value) = [0, 5, 13] ∧
      rp'.path.Chain' (fun a b => a.g_value ≤ b.g_value) := by
  obtain ⟨rp', hrun, hval⟩ := Outcome.ret_of_map _ _ _ fork_run
  simp only [Prod.mk.injEq] at hval
  exact ⟨rp', hrun, hval.2, stored_path_g_values_monotone forkUnvisitedModel insertionSort
    insertionSort_stdSort fork_only_unvisited euclid_nonneg 6 detourPlanner fresh_detour rp' hrun⟩

/-! ## Parent chains -/

theorem searchLoop_fuel_unique (M : RouteModel) (sort : Sorter) (f1 f2 : Nat) (rp : Planner)
    (cur : NodeId) (a b : Planner × NodeId) (h1 : searchLoop M sort f1 rp cur = Outcome.ret a)
    (h2 : searchLoop M sort f2 rp cur = Outcome.ret b) : a = b := by
  induction f1 generalizing f2 rp cur with
  | zero =>
    unfold searchLoop at h1
    split at h1
    · simp at h1
    · rename_i hc
      unfold searchLoop at h2
      rw [if_neg hc] at h2
      rw [h1] at h2
      simpa using h2
  | succ f1 ih =>
    unfold searchLoop at h1
    split at h1
    · rename_i hc
      cases f2 with
      | zero =>
        unfold searchLoop at h2
        rw [if_pos hc] at h2
        simp at h2
      | succ f2 =>
        unfold searchLoop at h2
        rw [if_pos hc] at h2
        cases hn : NextNode sort (AddNeighbors M rp cur) with
        | none => rw [hn] at h1; simp at h1
        | some r =>
          obtain ⟨next, rp1⟩ := r
          rw [hn] at h1 h2
          exact ih f2 rp1 next h1 h2
    · rename_i hc
      unfold searchLoop at h2
      rw [if_neg hc] at h2
      rw [h1] at h2
      simpa using h2

theorem parentChain_stays (nodes : NodeId → Node) (S : NodeId → Prop)
    (hS : ∀ n p, S n → (nodes n).parent = some p → S p) (l : List NodeId)
    (hl : ParentChain nodes l) (hhead : ∀ a, l.head? = some a → S a) : ∀ b ∈ l, S b := by
  induction l with
  | nil => simp
  | cons c l ih =>
    intro b hb
    have hc : S c := hhead c rfl
    rcases List.mem_cons.mp hb with rfl | hb
    · exact hc
    · cases l with
      | nil => simp at hb
      | cons p rest =>
        obtain ⟨hcp, hrest⟩ := hl
        exact ih hrest (fun a ha => by
          simp only [List.head?_cons, Option.some.injEq] at ha
          rw [← ha]; exact hS c p hc hcp) b hb

theorem line_run :
    (searchLoop lineModel insertionSort 20 (seedSearch linePlanner) 0).toOption.map
      (fun r => (r.2, r.1.start_node, r.1.end_node,
        [1, 2, 3].map (fun i => (r.1.nodes i).parent))) =
      some (3, 0, 3, [some 2, some 1, some 2]) := by
  decide!

theorem line_coords :
    (searchLoop lineModel insertionSort 20 (seedSearch linePlanner) 0).toOption.map
      (fun r => [0, 1, 2, 3].map (fun i => ((r.1.nodes i).x, (r.1.nodes i).y))) =
      some [(0, 0), (3, 4), (6, 8), (9, 12)] := by
  decide!

/-- C16 as stated fails: on the line network, whose neighbor lists are fixed and
hold every segment in both directions, the loop of `AStarSearch` run from the
fresh state ends with `current_node` equal to the goal `3`, and then the parent
of `3` is `2`, the parent of `2` is `1` and the parent of `1` is `2`: the parent
links from the goal never lead to the start node, and `AStarSearch` does not
return for any amount of fuel. -/
theorem parent_chain_need_not_reach_start :
    Fresh linePlanner ∧ FixedAdjacency lineModel lineAdj ∧
    linePlanner.start_node ≠ linePlanner.end_node ∧
    (searchLoop lineModel insertionSort 20 (seedSearch linePlanner) 0).toOption.map
      (fun r => (r.2, r.1.start_node, r.1.end_node,
        [1, 2, 3].map (fun i => (r.1.nodes i).parent))) =
      some (3, 0, 3, [some 2, some 1, some 2]) ∧
    ¬ ∃ fuel rp', AStarSearch lineModel insertionSort fuel linePlanner = Outcome.ret rp' := by
  refine ⟨fresh_line 0 3, fun _ _ => rfl, by decide, line_run, ?_⟩
  rintro ⟨fuel, rp', hrun⟩
  obtain ⟨rp1, cur, rp2, path, hloop, hcfp, -⟩ :=
    AStarSearch_ret lineModel insertionSort fuel linePlanner rp' hrun
  obtain ⟨⟨rq, cq⟩, hq, hval⟩ := Outcome.ret_of_map _ _ _ line_run
  obtain ⟨⟨rq', cq'⟩, hq', hcoords⟩ := Outcome.ret_of_map _ _ _ line_coords
  have huniq := searchLoop_fuel_unique lineModel insertionSort fuel 20 _ _ _ _ hloop hq
  have huniq' := searchLoop_fuel_unique lineModel insertionSort fuel 20 _ _ _ _ hloop hq'
  simp only [Prod.mk.injEq] at huniq huniq'
  obtain ⟨rfl, rfl⟩ := huniq
  obtain ⟨rfl, rfl⟩ := huniq'
  simp only [List.map_cons, List.map_nil, Prod.mk.injEq, List.cons.injEq, and_true] at hval
  simp only [List.map_cons, List.map_nil, Prod.mk.injEq, List.cons.injEq, and_true] at hcoords
  obtain ⟨-, hst, hend, hp1, hp2, hp3⟩ := hval
  obtain ⟨hc0, hc1, hc2, hc3⟩ := hcoords
  obtain ⟨ids, hchain, -, -, ⟨last, hlast, hstop⟩, -⟩ :=
    ConstructFinalPath_spec lineModel fuel rp1 _ rp2 path hcfp
  rw [hend] at hchain hlast
  have hmem : last ∈ (3 : NodeId) :: ids := List.mem_of_mem_getLast? hlast
  have hin := parentChain_stays rp1.nodes (fun n => n = 1 ∨ n = 2 ∨ n = 3)
    (by
      rintro n p (rfl | rfl | rfl) hp
      · rw [hp1] at hp; simp only [Option.some.injEq] at hp; exact Or.inr (Or.inl hp.symm)
      · rw [hp2] at hp; simp only [Option.some.injEq] at hp; exact Or.inl hp.symm
      · rw [hp3] at hp; simp only [Option.some.injEq] at hp; exact Or.inr (Or.inl hp.symm))
    _ hchain
    (fun a ha => by
      simp only [List.head?_cons, Option.some.injEq] at ha
      exact Or.inr (Or.inr ha.symm))
    last hmem
  rw [hst, hc0.1, hc0.2] at hstop
  rcases hin with rfl | rfl | rfl
  · rw [hc1.1, hc1.2] at hstop; norm_num at hstop
  · rw [hc2.1, hc2.2] at hstop; norm_num at hstop
  · rw [hc3.1, hc3.2] at hstop; norm_num at hstop

theorem anchored_step (M : RouteModel) (hu : OnlyUnvisited M) (rp : Planner) (c s n : NodeId)
    (h : Anchored rp.nodes s n) : Anchored (AddNeighbors M rp c).nodes s n := by
  induction h with
  | base => exact Anchored.base
  | step n p hv hp _ ih =>
    obtain ⟨hv', hp', -⟩ := visited_step M hu rp c n hv
    exact Anchored.step n p hv' (hp'.trans hp) ih

theorem anchored_all_step (M : RouteModel) (hu : OnlyUnvisited M) (rp : Planner) (c s : NodeId)
    (hc : (rp.nodes c).visited = true)
    (h : ∀ n, (rp.nodes n).visited = true → Anchored rp.nodes s n) :
    ∀ n, ((AddNeighbors M rp c).nodes n).visited = true →
      Anchored (AddNeighbors M rp c).nodes s n := by
  intro n hv
  by_cases hn : n ∈ M.FindNeighbors rp.nodes c
  · exact Anchored.step n c hv (AddNeighbors_marks M rp c n hn).2.1
      (anchored_step M hu rp c s c (h c hc))
  · rw [(AddNeighbors_frame M rp c n hn).1] at hv
    exact anchored_step M hu rp c s n (h n hv)

theorem walkParents_returns (M : RouteModel) (nodes : NodeId → Node) (s n : NodeId)
    (h : Anchored nodes s n) :
    ∃ fuel0, ∀ fuel, fuel0 ≤ fuel → ∀ d acc,
      ∃ r, walkParents M nodes s fuel n d acc = Outcome.ret r := by
  induction h with
  | base =>
    refine ⟨0, fun fuel _ d acc => ⟨(s, d, acc), ?_⟩⟩
    unfold walkParents
    simp
  | step n p _ hp _ ih =>
    obtain ⟨f0, hf0⟩ := ih
    refine ⟨f0 + 1, fun fuel hfuel d acc => ?_⟩
    obtain ⟨f, rfl⟩ : ∃ f, fuel = f + 1 := ⟨fuel - 1, by omega⟩
    unfold walkParents
    split
    · simp only [hp]
      exact hf0 f (by omega) _ _
    · exact ⟨_, rfl⟩

/-- C16, amended. When the neighbor lookup returns only nodes that are not yet
visited, and the loop of `AStarSearch` run from a fresh state ends with
`current_node` equal to the goal, then following the parent links from the goal
node leads, through visited nodes that all have a parent, to the start node, and
`ConstructFinalPath(goal)` returns whenever it has enough fuel. -/
theorem parent_chain_reaches_start (M : RouteModel) (sort : Sorter) (hs : StdSort sort)
    (hu : OnlyUnvisited M) (fuel : Nat) (rp : Planner) (hfresh : Fresh rp) (rp1 : Planner)
    (hloop : searchLoop M sort fuel (seedSearch rp) rp.start_node =
      Outcome.ret (rp1, rp.end_node)) :
    Anchored rp1.nodes rp.start_node rp.end_node ∧
    ∃ fuel0, ∀ fuel', fuel0 ≤ fuel' →
      ∃ r, ConstructFinalPath M fuel' rp1 rp.end_node = Outcome.ret r := by
  obtain ⟨hq, hcur, hst, -⟩ := nodes_invariant_loop M sort hs
    (fun nodes => ∀ n, (nodes n).visited = true → Anchored nodes rp.start_node n)
    (fun p c hp hc => anchored_all_step M hu p c rp.start_node hc hp) fuel rp hfresh
    (by
      intro n hv
      rw [(seedSearch_fields rp n).2.2.2.2.2, (hfresh.2 n).1] at hv
      have hn : n = rp.start_node := by simpa using hv
      rw [hn]
      exact Anchored.base)
    rp1 rp.end_node hloop
  have hanch := hq rp.end_node hcur
  refine ⟨hanch, ?_⟩
  obtain ⟨f0, hf0⟩ := walkParents_returns M rp1.nodes rp.start_node rp.end_node hanch
  refine ⟨f0, fun fuel' hfuel' => ?_⟩
  obtain ⟨⟨last, d, acc⟩, hr⟩ := hf0 fuel' hfuel' 0 []
  unfold ConstructFinalPath
  rw [hst, hr]
  exact ⟨_, rfl⟩

theorem fork_loop :
    (searchLoop forkUnvisitedModel insertionSort 6 (seedSearch detourPlanner) 0).toOption.map
      (fun r => (r.2, [2, 3].map (fun i => (r.1.nodes i).parent))) =
      some (3, [some 0, some 2]) := by
  decide!

/-- C16, amended, at an instance: the fork network with a lookup that leaves out
visited nodes; the loop ends at the goal `3`, whose parent is `2`, whose parent
is the start `0`. -/
theorem parent_chain_reaches_start_witness :
    ∃ rp1, searchLoop forkUnvisitedModel insertionSort 6 (seedSearch detourPlanner)
        detourPlanner.start_node = Outcome.ret (rp1, detourPlanner.end_node) ∧
      [2, 3].map (fun i => (rp1.nodes i).parent) = [some 0, some 2] ∧
      Anchored rp1.nodes detourPlanner.start_node detourPlanner.end_node ∧
      ∃ fuel0, ∀ fuel', fuel0 ≤ fuel' →
        ∃ r, ConstructFinalPath forkUnvisitedModel fuel' rp1 detourPlanner.end_node =
          Outcome.ret r := by
  obtain ⟨⟨rp1, cur⟩, hrun, hval⟩ := Outcome.ret_of_map _ _ _ fork_loop
  simp only [Prod.mk.injEq] at hval
  obtain ⟨hcur, hpar⟩ := hval
  subst hcur
  exact ⟨rp1, hrun, hpar, parent_chain_reaches_start forkUnvisitedModel insertionSort
    insertionSort_stdSort fork_only_unvisited 6 detourPlanner fresh_detour rp1 hrun⟩

/-! ## Expanded nodes and the frontier -/

/-- C17 as stated fails: on the detour network, after five iterations of the
loop of `AStarSearch` run from the fresh state, the nodes passed to
`AddNeighbors` are `0, 0, 2, 2, 1` and the frontier is `[1, 1, 3]`: node `1`,
which is not the start node, was expanded and occurs in the frontier. -/
theorem expanded_node_in_frontier :
    Fresh detourPlanner ∧
    ∃ rp' cur' ex n,
      searchSteps detourModel insertionSort 5 (seedSearch detourPlanner)
        detourPlanner.start_node [] = some (rp', cur', ex) ∧
      ex = [0, 0, 2, 2, 1] ∧ rp'.open_list = [1, 1, 3] ∧
      n ∈ ex ∧ n ∈ rp'.open_list ∧ n ≠ detourPlanner.start_node := by
  refine ⟨fresh_detour, ?_⟩
  obtain ⟨⟨rp', cur', ex⟩, hrun, hval⟩ := Option.some_of_map _ _ _ detour_steps
  simp only [Prod.mk.injEq] at hval
  obtain ⟨hO, -, hex⟩ := hval
  refine ⟨rp', cur', ex, 1, hrun, hex, hO, ?_, ?_, by decide⟩
  · rw [hex]; decide
  · rw [hO]; decide

/-- The invariant behind C17 for a lookup that returns unvisited nodes, none
twice. -/
theorem leave_frontier_step (M : RouteModel) (hu : OnlyUnvisited M) (hr : NoRepeats M)
    (s : NodeId) (rp : Planner) (cur : NodeId) (ex : List NodeId)
    (hnodup : rp.open_list.Nodup)
    (hO : ∀ n ∈ rp.open_list, (rp.nodes n).visited = true)
    (hcur : (rp.nodes cur).visited = true)
    (hex : ∀ n ∈ ex, (rp.nodes n).visited = true)
    (hout : ∀ n ∈ ex, n ≠ s → n ∉ rp.open_list)
    (hcout : cur ≠ s → cur ∉ rp.open_list) :
    (rp.open_list ++ M.FindNeighbors rp.nodes cur).Nodup ∧
    (∀ n ∈ ex ++ [cur], ((AddNeighbors M rp cur).nodes n).visited = true) ∧
    ∀ n ∈ ex ++ [cur], n ≠ s → n ∉ rp.open_list ++ M.FindNeighbors rp.nodes cur := by
  have hvis : ∀ n ∈ ex ++ [cur], (rp.nodes n).visited = true := by
    intro n hn
    rcases List.mem_append.mp hn with h | h
    · exact hex n h
    · have : n = cur := by simpa using h
      rw [this]; exact hcur
  refine ⟨?_, fun n hn => (visited_step M hu rp cur n (hvis n hn)).1, ?_⟩
  · refine List.Nodup.append hnodup (hr rp.nodes cur) ?_
    intro n hn hL
    exact unvisited_not_mem M hu rp cur n (hO n hn) hL
  · intro n hn hns hmem
    rcases List.mem_append.mp hmem with h | h
    · rcases List.mem_append.mp hn with h' | h'
      · exact hout n h' hns h
      · have : n = cur := by simpa using h'
        rw [this] at hns h
        exact hcout hns h
    · exact unvisited_not_mem M hu rp cur n (hvis n hn) h

/-- C17, amended. When the neighbor lookup returns only nodes that are not yet
visited, none of them twice in one list, then at every point of the loop of
`AStarSearch` run from a fresh state (at the loop condition after any number of
iterations, and after the call of `AddNeighbors` that follows) no node other
than the start node that has been passed to `AddNeighbors` occurs in the
frontier. -/
theorem expanded_nodes_leave_frontier (M : RouteModel) (sort : Sorter) (hs : StdSort sort)
    (hu : OnlyUnvisited M) (hr : NoRepeats M) (rp : Planner) (hfresh : Fresh rp) (k : Nat)
    (rp' : Planner) (cur' : NodeId) (ex : List NodeId)
    (h : searchSteps M sort k (seedSearch rp) rp.start_node [] = some (rp', cur', ex)) :
    (∀ n ∈ ex, n ≠ rp.start_node → n ∉ rp'.open_list) ∧
    ∀ n ∈ ex ++ [cur'], n ≠ rp.start_node → n ∉ (AddNeighbors M rp' cur').open_list := by
  obtain ⟨hnodup, hO, hcur, hex, hout, hcout⟩ := searchSteps_invariant M sort hs
    (fun p c e => p.open_list.Nodup ∧ (∀ n ∈ p.open_list, (p.nodes n).visited = true) ∧
      (p.nodes c).visited = true ∧ (∀ n ∈ e, (p.nodes n).visited = true) ∧
      (∀ n ∈ e, n ≠ rp.start_node → n ∉ p.open_list) ∧
      (c ≠ rp.start_node → c ∉ p.open_list))
    (by
      rintro p c e next rest ⟨hnodup, hO, hcur, hex, hout, hcout⟩ - - hperm
      obtain ⟨hnd, hv, hno⟩ :=
        leave_frontier_step M hu hr rp.start_node p c e hnodup hO hcur hex hout hcout
      have hnd' : (next :: rest).Nodup := hperm.nodup_iff.mpr hnd
      have hvis := frontier_visited_step M p c next rest hO hperm
      refine ⟨(List.nodup_cons.mp hnd').2, fun n hn => hvis n (List.mem_cons_of_mem _ hn),
        hvis next (List.mem_cons_self _ _), hv, ?_, fun _ => (List.nodup_cons.mp hnd').1⟩
      intro n hn hns hmem
      exact hno n hn hns (hperm.subset (List.mem_cons_of_mem _ hmem)))
    k (seedSearch rp) rp.start_node [] rp' cur' ex
    ⟨by rw [seedSearch_open_list, hfresh.1]; simp, seed_frontier_visited rp hfresh,
      by rw [(seedSearch_fields rp _).2.2.2.2.2]; simp, by simp, by simp,
      fun hne => absurd rfl hne⟩
    h
  refine ⟨hout, ?_⟩
  rw [AddNeighbors_open_list]
  exact (leave_frontier_step M hu hr rp.start_node rp' cur' ex hnodup hO hcur hex hout hcout).2.2

theorem fork_no_repeats : NoRepeats forkUnvisitedModel := by
  intro nodes c
  have hnodup : (forkAdj c).Nodup := by
    rcases c with _ | _ | _ | c <;> simp [forkAdj]
  exact hnodup.filter _

theorem fork_steps :
    (searchSteps forkUnvisitedModel insertionSort 3 (seedSearch detourPlanner) 0 []).map
      (fun r => (r.1.open_list, r.2.1, r.2.2)) = some ([1], 3, [0, 0, 2]) := by
  decide!

/-- C17, amended, at an instance: the fork network with a lookup that leaves out
visited nodes, after three iterations; the expanded nodes are `0, 0, 2` and the
frontier is `[1]`. -/
theorem expanded_nodes_leave_frontier_witness :
    ∃ rp' cur' ex,
      searchSteps forkUnvisitedModel insertionSort 3 (seedSearch detourPlanner)
        detourPlanner.start_node [] = some (rp', cur', ex) ∧
      ex = [0, 0, 2] ∧ rp'.open_list = [1] ∧
      (∀ n ∈ ex, n ≠ detourPlanner.start_node → n ∉ rp'.open_list) ∧
      ∀ n ∈ ex ++ [cur'], n ≠ detourPlanner.start_node →
        n ∉ (AddNeighbors forkUnvisitedModel rp' cur').open_list := by
  obtain ⟨⟨rp', cur', ex⟩, hrun, hval⟩ := Option.some_of_map _ _ _ fork_steps
  simp only [Prod.mk.injEq] at hval
  exact ⟨rp', cur', ex, hrun, hval.2.2, hval.1,
    expanded_nodes_leave_frontier forkUnvisitedModel insertionSort insertionSort_stdSort
      fork_only_unvisited fork_no_repeats detourPlanner fresh_detour 3 rp' cur' ex hrun⟩

/-! ## An instance of the admissible heuristic -/

theorem taxicab_isMetric : IsMetric taxicab := by
  refine ⟨fun p q => ?_, fun p q => ?_, fun p => ?_, fun p q r => ?_⟩
  · exact add_nonneg (abs_nonneg _) (abs_nonneg _)
  · simp only [taxicab, abs_sub_comm]
  · simp [taxicab]
  · have h1 := abs_sub_le p.1 q.1 r.1
    have h2 := abs_sub_le p.2 q.2 r.2
    simp only [taxicab]
    linarith

theorem taxi_steps :
    (searchSteps taxiModel insertionSort 3 (seedSearch detourPlanner) 0 []).map
      (fun r => ((r.1.nodes 1).parent, (r.1.nodes 1).h_value)) = some (some 2, 14) := by
  decide!

/-- C12, at an instance: the detour network with the taxicab distance after
three iterations; node `1` at `(-4, -3)` has `h_value` 14, its distance to the
goal at `(4, 3)`. -/
theorem cached_heuristic_is_admissible_witness :
    ∃ rp' cur' ex,
      searchSteps taxiModel insertionSort 3 (seedSearch detourPlanner)
        detourPlanner.start_node [] = some (rp', cur', ex) ∧
      (rp'.nodes 1).parent ≠ none ∧ (rp'.nodes 1).h_value = 14 ∧
      (rp'.nodes 1).h_value =
        (rp'.nodes 1).distance taxiModel (rp'.nodes detourPlanner.end_node) ∧
      ∀ (adj : NodeId → List NodeId) (l : List NodeId),
        Route adj 1 detourPlanner.end_node l →
        (rp'.nodes 1).h_value ≤ routeCost taxiModel rp'.nodes l := by
  obtain ⟨⟨rp', cur', ex⟩, hrun, hval⟩ := Option.some_of_map _ _ _ taxi_steps
  simp only [Prod.mk.injEq] at hval
  have hpar : (rp'.nodes 1).parent ≠ none := by rw [hval.1]; simp
  exact ⟨rp', cur', ex, hrun, hpar, hval.2,
    cached_heuristic_is_admissible taxiModel insertionSort insertionSort_stdSort
      taxicab_isMetric detourPlanner fresh_detour 3 rp' cur' ex hrun 1 hpar⟩

end RoutePlanner
